import Mathlib

/-!
Verification of the markov-chain text generation engine (`src/markov.rs`).

The Rust source is shallowly embedded: machine integers (`u8`, `u16`, `u32`)
become `Nat` with explicit `% 256` / `% 65536` where the code casts, the byte
buffer `Vec<u8>` becomes `List Nat`, `HashMap` becomes an association list
(first-match lookup, in-place replacement on update, append on fresh key),
`ThreadRng` becomes an explicit stream `Nat → Nat` threaded through every
sampling call, and panics (`panic!`, out-of-bounds `Vec` ops, sampling an
empty range) become `Option` with `none` as the panic outcome.
-/

namespace Fake

/-- The random source: an infinite stream of draws.  `rng 0` is the next raw
draw; consuming one draw shifts the stream. -/
abbrev RNG := Nat → Nat

def rngTail (r : RNG) : RNG := fun n => r (n + 1)

/-- Association-list lookup, first match wins (models `HashMap::get`). -/
def alookup {α β : Type} [DecidableEq α] : List (α × β) → α → Option β
  | [], _ => none
  | (k, v) :: rest, key => if k = key then some v else alookup rest key

/-- Association-list insert-or-replace (models `HashMap::insert` / the
`entry(..).or_insert(..)` pattern followed by mutation of the slot). -/
def aupsert {α β : Type} [DecidableEq α] : List (α × β) → α → β → List (α × β)
  | [], key, val => [(key, val)]
  | (k, v) :: rest, key, val =>
    if k = key then (key, val) :: rest else (k, v) :: aupsert rest key val

/-- `Vec::insert(i, x)`: insert `x` so that it ends up at index `i`. -/
def listInsert {α : Type} (l : List α) (i : Nat) (x : α) : List α :=
  l.take i ++ x :: l.drop i

/-- `BufferTokSet` from `markov.rs`: a packed multiset of token ids.  `buf` is
the raw byte buffer, `c1` counts one-byte entries, `c2` two-byte entries; all
remaining bytes hold three-byte entries. -/
structure BufferTokSet where
  buf : List Nat
  c2 : Nat
  c1 : Nat
deriving DecidableEq, Repr

def BufferTokSet.new : BufferTokSet := ⟨[], 0, 0⟩

/-- `BufferTokSet::length`: `c1 + c2 + (remaining bytes) / 3`. -/
def BufferTokSet.length (s : BufferTokSet) : Nat :=
  s.c1 + s.c2 + (s.buf.length - s.c1 - s.c2 * 2) / 3

/-- `BufferTokSet::get`: read the element at a logical index, decoding little
endian bytes from the segment the index falls into. -/
def BufferTokSet.get (s : BufferTokSet) (index : Nat) : Nat :=
  if index < s.c1 then
    s.buf.getD index 0
  else if index < s.c1 + s.c2 then
    s.buf.getD (s.c1 + (index - s.c1) * 2) 0 +
      s.buf.getD (s.c1 + (index - s.c1) * 2 + 1) 0 * 256
  else
    s.buf.getD (s.c1 + s.c2 * 2 + (index - (s.c1 + s.c2)) * 3) 0 +
      s.buf.getD (s.c1 + s.c2 * 2 + (index - (s.c1 + s.c2)) * 3 + 1) 0 * 256 +
      s.buf.getD (s.c1 + s.c2 * 2 + (index - (s.c1 + s.c2)) * 3 + 2) 0 * 65536

/-- `BufferTokSet::add1`: insert one byte at the end of segment 1. -/
def BufferTokSet.add1 (s : BufferTokSet) (tok : Nat) : BufferTokSet :=
  { s with buf := listInsert s.buf s.c1 (tok % 256), c1 := s.c1 + 1 }

/-- `BufferTokSet::add2`: insert two little-endian bytes at the end of
segment 2 (`byte1` then `byte2`, each `Vec::insert`). -/
def BufferTokSet.add2 (s : BufferTokSet) (tok : Nat) : BufferTokSet :=
  { s with
    buf := listInsert (listInsert s.buf (s.c1 + s.c2 * 2) (tok % 256))
      (s.c1 + s.c2 * 2 + 1) (tok / 256 % 256),
    c2 := s.c2 + 1 }

/-- `BufferTokSet::add3`: push three little-endian bytes at the end. -/
def BufferTokSet.add3 (s : BufferTokSet) (tok : Nat) : BufferTokSet :=
  { s with buf := s.buf ++ [tok % 256, tok / 256 % 256, tok / 65536 % 256] }

/-- `BufferTokSet::add`: route the entry by magnitude (and remaining segment
capacity); `none` models the `panic!("4-byte entries not supported")`. -/
def BufferTokSet.add (s : BufferTokSet) (entry : Nat) : Option BufferTokSet :=
  if entry ≤ 255 ∧ s.c1 < 65535 then some (s.add1 entry)
  else if entry ≤ 65535 ∧ s.c2 < 65535 then some (s.add2 entry)
  else if entry ≤ 16777215 then some (s.add3 entry)
  else none

/-- `TokSet::choose` for `BufferTokSet`: draw a uniformly random logical index
and read it back.  `none` models the panic of `gen_range(0, 0)`. -/
def BufferTokSet.choose (s : BufferTokSet) (rng : RNG) : Option (Nat × RNG) :=
  if s.length = 0 then none
  else some (s.get (rng 0 % s.length), rngTail rng)

/-- Fold `add` over a list of insertions. -/
def BufferTokSet.addAll (s : BufferTokSet) (l : List Nat) : Option BufferTokSet :=
  l.foldlM BufferTokSet.add s

/-- All elements of the buffer, read back through `get` at every logical
index. -/
def BufferTokSet.elems (s : BufferTokSet) : List Nat :=
  (List.range s.length).map s.get

/-! ### Specification-side model of the segment layout

`route` follows the spec's description of the logical layout: each insertion
is appended at the end of the segment chosen by its magnitude (falling through
to a wider segment when the target segment is full), and the logical index
space is segment 1 followed by segment 2 followed by segment 3. -/

/-- One insertion on the abstract three-segment state. -/
def route : List Nat × List Nat × List Nat → Nat → List Nat × List Nat × List Nat :=
  fun t e =>
    if e ≤ 255 ∧ t.1.length < 65535 then (t.1 ++ [e], t.2.1, t.2.2)
    else if e ≤ 65535 ∧ t.2.1.length < 65535 then (t.1, t.2.1 ++ [e], t.2.2)
    else (t.1, t.2.1, t.2.2 ++ [e])

/-- The abstract element list after a sequence of insertions: segment 1, then
segment 2, then segment 3, each in insertion order.  The position of an
element in this list is its logical index. -/
def segModel (l : List Nat) : List Nat :=
  let t := l.foldl route ([], [], [])
  t.1 ++ t.2.1 ++ t.2.2

/-- Two-byte little-endian encoding of a list of values. -/
def enc2 : List Nat → List Nat
  | [] => []
  | e :: es => e % 256 :: e / 256 % 256 :: enc2 es

/-- Three-byte little-endian encoding of a list of values. -/
def enc3 : List Nat → List Nat
  | [] => []
  | e :: es => e % 256 :: e / 256 % 256 :: e / 65536 % 256 :: enc3 es

/-- The refinement relation: the packed buffer represents the three abstract
segments `l1`, `l2`, `l3`. -/
def SegRep (s : BufferTokSet) (l1 l2 l3 : List Nat) : Prop :=
  s.buf = l1 ++ enc2 l2 ++ enc3 l3 ∧ s.c1 = l1.length ∧ s.c2 = l2.length ∧
    (∀ e ∈ l1, e ≤ 255) ∧ (∀ e ∈ l2, e ≤ 65535) ∧ (∀ e ∈ l3, e ≤ 16777215)

instance (s : BufferTokSet) (l1 l2 l3 : List Nat) : Decidable (SegRep s l1 l2 l3) := by
  unfold SegRep; infer_instance

/-- A well-formed buffer: one reachable from the empty buffer, i.e. one that
represents some abstract segment state. -/
def SWF (s : BufferTokSet) : Prop := ∃ l1 l2 l3, SegRep s l1 l2 l3

theorem segRep_new : SegRep BufferTokSet.new [] [] [] := by
  refine ⟨rfl, rfl, rfl, ?_, ?_, ?_⟩ <;> intro e h <;> simp at h

theorem enc2_length (l : List Nat) : (enc2 l).length = 2 * l.length := by
  induction l with
  | nil => simp [enc2]
  | cons e es ih => simp [enc2, ih]; ring

theorem enc3_length (l : List Nat) : (enc3 l).length = 3 * l.length := by
  induction l with
  | nil => simp [enc3]
  | cons e es ih => simp [enc3, ih]; ring

theorem enc2_append (a b : List Nat) : enc2 (a ++ b) = enc2 a ++ enc2 b := by
  induction a with
  | nil => simp [enc2]
  | cons e es ih => simp [enc2, ih]

theorem enc3_append (a b : List Nat) : enc3 (a ++ b) = enc3 a ++ enc3 b := by
  induction a with
  | nil => simp [enc3]
  | cons e es ih => simp [enc3, ih]

theorem enc2_getD (l : List Nat) (i : Nat) (h : i < l.length) :
    (enc2 l).getD (2 * i) 0 = l.getD i 0 % 256 ∧
      (enc2 l).getD (2 * i + 1) 0 = l.getD i 0 / 256 % 256 := by
  induction l generalizing i with
  | nil => simp at h
  | cons e es ih =>
    cases i with
    | zero => simp [enc2]
    | succ j =>
      have hj : j < es.length := by simpa using h
      have := ih j hj
      have h2 : 2 * (j + 1) = (2 * j) + 2 := by ring
      simp only [enc2, h2, List.getD_cons_succ]
      exact this

theorem enc3_getD (l : List Nat) (i : Nat) (h : i < l.length) :
    (enc3 l).getD (3 * i) 0 = l.getD i 0 % 256 ∧
      (enc3 l).getD (3 * i + 1) 0 = l.getD i 0 / 256 % 256 ∧
      (enc3 l).getD (3 * i + 2) 0 = l.getD i 0 / 65536 % 256 := by
  induction l generalizing i with
  | nil => simp at h
  | cons e es ih =>
    cases i with
    | zero => simp [enc3]
    | succ j =>
      have hj : j < es.length := by simpa using h
      have := ih j hj
      have h3 : 3 * (j + 1) = (3 * j) + 3 := by ring
      simp only [enc3, h3, List.getD_cons_succ]
      exact this

theorem getD_mem_of_lt {l : List Nat} {i : Nat} (h : i < l.length) :
    l.getD i 0 ∈ l := by
  rw [List.getD_eq_getElem l 0 h]
  exact List.getElem_mem h

theorem SegRep.buf_length {s : BufferTokSet} {l1 l2 l3 : List Nat}
    (h : SegRep s l1 l2 l3) :
    s.buf.length = l1.length + 2 * l2.length + 3 * l3.length := by
  obtain ⟨hb, -, -, -, -, -⟩ := h
  simp [hb, enc2_length, enc3_length]
  ring

theorem SegRep.length_eq {s : BufferTokSet} {l1 l2 l3 : List Nat}
    (h : SegRep s l1 l2 l3) :
    s.length = l1.length + l2.length + l3.length := by
  have hbl := h.buf_length
  obtain ⟨-, hc1, hc2, -, -, -⟩ := h
  unfold BufferTokSet.length
  rw [hbl, hc1, hc2]
  have h3 : l1.length + 2 * l2.length + 3 * l3.length - l1.length - l2.length * 2
      = 3 * l3.length := by omega
  rw [h3]
  omega

theorem bytes2_recompose (x : Nat) (h : x ≤ 65535) :
    x % 256 + x / 256 % 256 * 256 = x := by omega

theorem bytes3_recompose (x : Nat) (h : x ≤ 16777215) :
    x % 256 + x / 256 % 256 * 256 + x / 65536 % 256 * 65536 = x := by omega

theorem SegRep.get_eq {s : BufferTokSet} {l1 l2 l3 : List Nat}
    (h : SegRep s l1 l2 l3) (i : Nat)
    (hi : i < l1.length + l2.length + l3.length) :
    s.get i = (l1 ++ l2 ++ l3).getD i 0 := by
  obtain ⟨hb, hc1, hc2, h1, h2, h3⟩ := h
  unfold BufferTokSet.get
  rw [hb, hc1, hc2]
  rw [List.append_assoc l1 (enc2 l2) (enc3 l3)]
  by_cases case1 : i < l1.length
  · rw [if_pos case1]
    rw [List.getD_append _ _ _ _ case1]
    rw [List.append_assoc l1 l2 l3, List.getD_append _ _ _ _ case1]
  · rw [if_neg case1]
    by_cases case2 : i < l1.length + l2.length
    · rw [if_pos case2]
      have hjlt : i - l1.length < l2.length := by omega
      have b1 : (l1 ++ (enc2 l2 ++ enc3 l3)).getD (l1.length + (i - l1.length) * 2) 0
          = (enc2 l2).getD (2 * (i - l1.length)) 0 := by
        rw [List.getD_append_right _ _ _ _ (by omega)]
        have hidx : l1.length + (i - l1.length) * 2 - l1.length
            = 2 * (i - l1.length) := by omega
        rw [hidx]
        exact List.getD_append _ _ _ _ (by rw [enc2_length]; omega)
      have b2 : (l1 ++ (enc2 l2 ++ enc3 l3)).getD (l1.length + (i - l1.length) * 2 + 1) 0
          = (enc2 l2).getD (2 * (i - l1.length) + 1) 0 := by
        rw [List.getD_append_right _ _ _ _ (by omega)]
        have hidx : l1.length + (i - l1.length) * 2 + 1 - l1.length
            = 2 * (i - l1.length) + 1 := by omega
        rw [hidx]
        exact List.getD_append _ _ _ _ (by rw [enc2_length]; omega)
      obtain ⟨g1, g2⟩ := enc2_getD l2 (i - l1.length) hjlt
      have hval : l2.getD (i - l1.length) 0 ≤ 65535 :=
        h2 _ (getD_mem_of_lt hjlt)
      have rhs : (l1 ++ l2 ++ l3).getD i 0 = l2.getD (i - l1.length) 0 := by
        rw [List.append_assoc l1 l2 l3,
          List.getD_append_right _ _ _ _ (by omega : l1.length ≤ i)]
        exact List.getD_append _ _ _ _ (by omega)
      rw [b1, b2, g1, g2, rhs]
      exact bytes2_recompose _ hval
    · rw [if_neg case2]
      have hjlt : i - (l1.length + l2.length) < l3.length := by omega
      have bgen : ∀ off : Nat, off < 3 →
          (l1 ++ (enc2 l2 ++ enc3 l3)).getD
            (l1.length + l2.length * 2 + (i - (l1.length + l2.length)) * 3 + off) 0
          = (enc3 l3).getD (3 * (i - (l1.length + l2.length)) + off) 0 := by
        intro off hoff
        rw [List.getD_append_right _ _ _ _ (by omega)]
        rw [List.getD_append_right _ _ _ _ (by rw [enc2_length]; omega)]
        congr 1
        rw [enc2_length]
        omega
      have b1 : (l1 ++ (enc2 l2 ++ enc3 l3)).getD
          (l1.length + l2.length * 2 + (i - (l1.length + l2.length)) * 3) 0
          = (enc3 l3).getD (3 * (i - (l1.length + l2.length))) 0 := by
        simpa using bgen 0 (by omega)
      have b2 := bgen 1 (by omega)
      have b3 := bgen 2 (by omega)
      obtain ⟨g1, g2, g3⟩ := enc3_getD l3 (i - (l1.length + l2.length)) hjlt
      have hval : l3.getD (i - (l1.length + l2.length)) 0 ≤ 16777215 :=
        h3 _ (getD_mem_of_lt hjlt)
      have rhs : (l1 ++ l2 ++ l3).getD i 0
          = l3.getD (i - (l1.length + l2.length)) 0 := by
        rw [List.append_assoc l1 l2 l3,
          List.getD_append_right _ _ _ _ (by omega : l1.length ≤ i)]
        rw [List.getD_append_right _ _ _ _ (by omega : l2.length ≤ i - l1.length)]
        congr 1
        omega
      rw [b1, b2, b3, g1, g2, g3, rhs]
      exact bytes3_recompose _ hval

theorem SegRep.elems_eq {s : BufferTokSet} {l1 l2 l3 : List Nat}
    (h : SegRep s l1 l2 l3) : s.elems = l1 ++ l2 ++ l3 := by
  have hlen := h.length_eq
  apply List.ext_getElem
  · simp [BufferTokSet.elems, hlen]
    omega
  · intro i h1 h2
    simp only [BufferTokSet.elems, List.getElem_map, List.getElem_range]
    have hi : i < l1.length + l2.length + l3.length := by
      simp [BufferTokSet.elems, hlen] at h1
      omega
    rw [h.get_eq i hi]
    rw [List.getD_eq_getElem _ 0 (by simp; omega)]

theorem SegRep.add1_step {s : BufferTokSet} {l1 l2 l3 : List Nat}
    (h : SegRep s l1 l2 l3) {e : Nat} (he : e ≤ 255) :
    SegRep (s.add1 e) (l1 ++ [e]) l2 l3 := by
  obtain ⟨hb, hc1, hc2, h1, h2, h3⟩ := h
  refine ⟨?_, ?_, ?_, ?_, h2, h3⟩
  · show listInsert s.buf s.c1 (e % 256) = (l1 ++ [e]) ++ enc2 l2 ++ enc3 l3
    rw [hb, hc1]
    unfold listInsert
    rw [List.append_assoc l1 (enc2 l2) (enc3 l3)]
    rw [List.take_left, List.drop_left]
    have hee : e % 256 = e := Nat.mod_eq_of_lt (by omega)
    simp [hee]
  · show s.c1 + 1 = (l1 ++ [e]).length
    simp [hc1]
  · exact hc2
  · intro x hx
    rcases List.mem_append.mp hx with hx1 | hx2
    · exact h1 x hx1
    · simp at hx2
      omega

theorem SegRep.add2_step {s : BufferTokSet} {l1 l2 l3 : List Nat}
    (h : SegRep s l1 l2 l3) {e : Nat} (he : e ≤ 65535) :
    SegRep (s.add2 e) l1 (l2 ++ [e]) l3 := by
  obtain ⟨hb, hc1, hc2, h1, h2, h3⟩ := h
  have hpos : s.c1 + s.c2 * 2 = (l1 ++ enc2 l2).length := by
    simp [hc1, hc2, enc2_length]
    ring
  refine ⟨?_, hc1, ?_, h1, ?_, h3⟩
  · show listInsert (listInsert s.buf (s.c1 + s.c2 * 2) (e % 256))
        (s.c1 + s.c2 * 2 + 1) (e / 256 % 256) = l1 ++ enc2 (l2 ++ [e]) ++ enc3 l3
    rw [hb, hpos]
    unfold listInsert
    rw [List.take_left, List.drop_left]
    have hstep : (l1 ++ enc2 l2).length + 1
        = ((l1 ++ enc2 l2) ++ [e % 256]).length := by
      simp
      omega
    rw [List.append_cons (l1 ++ enc2 l2) (e % 256) (enc3 l3)]
    rw [hstep, List.take_left, List.drop_left]
    rw [enc2_append l2 [e]]
    simp [enc2, List.append_assoc]
  · show s.c2 + 1 = (l2 ++ [e]).length
    simp [hc2]
  · intro x hx
    rcases List.mem_append.mp hx with hx1 | hx2
    · exact h2 x hx1
    · simp at hx2
      omega

theorem SegRep.add3_step {s : BufferTokSet} {l1 l2 l3 : List Nat}
    (h : SegRep s l1 l2 l3) {e : Nat} (he : e ≤ 16777215) :
    SegRep (s.add3 e) l1 l2 (l3 ++ [e]) := by
  obtain ⟨hb, hc1, hc2, h1, h2, h3⟩ := h
  refine ⟨?_, hc1, hc2, h1, h2, ?_⟩
  · show s.buf ++ [e % 256, e / 256 % 256, e / 65536 % 256]
        = l1 ++ enc2 l2 ++ enc3 (l3 ++ [e])
    rw [hb, enc3_append l3 [e]]
    simp [enc3, List.append_assoc]
  · intro x hx
    rcases List.mem_append.mp hx with hx1 | hx2
    · exact h3 x hx1
    · simp at hx2
      omega

theorem SegRep.add_some {s : BufferTokSet} {l1 l2 l3 : List Nat}
    (h : SegRep s l1 l2 l3) {e : Nat} (he : e ≤ 16777215) :
    ∃ s', s.add e = some s' ∧
      SegRep s' (route (l1, l2, l3) e).1 (route (l1, l2, l3) e).2.1
        (route (l1, l2, l3) e).2.2 := by
  have hc1 : s.c1 = l1.length := h.2.1
  have hc2 : s.c2 = l2.length := h.2.2.1
  unfold BufferTokSet.add route
  by_cases hb1 : e ≤ 255 ∧ l1.length < 65535
  · rw [if_pos (by rw [hc1]; exact hb1), if_pos hb1]
    exact ⟨_, rfl, h.add1_step hb1.1⟩
  · rw [if_neg (by rw [hc1]; exact hb1), if_neg hb1]
    by_cases hb2 : e ≤ 65535 ∧ l2.length < 65535
    · rw [if_pos (by rw [hc2]; exact hb2), if_pos hb2]
      exact ⟨_, rfl, h.add2_step hb2.1⟩
    · rw [if_neg (by rw [hc2]; exact hb2), if_neg hb2]
      rw [if_pos he]
      exact ⟨_, rfl, h.add3_step he⟩

theorem addAll_segRep :
    ∀ (l : List Nat) (s : BufferTokSet) (t1 t2 t3 : List Nat),
      (∀ e ∈ l, e ≤ 16777215) → SegRep s t1 t2 t3 →
      ∃ s', BufferTokSet.addAll s l = some s' ∧
        SegRep s' (l.foldl route (t1, t2, t3)).1
          (l.foldl route (t1, t2, t3)).2.1 (l.foldl route (t1, t2, t3)).2.2
  | [], s, t1, t2, t3, _, h => ⟨s, rfl, h⟩
  | e :: es, s, t1, t2, t3, hl, h => by
    obtain ⟨s1, hadd, hrep⟩ := h.add_some (hl e (by simp))
    obtain ⟨s', hall, hrep'⟩ := addAll_segRep es s1 _ _ _
      (fun x hx => hl x (by simp [hx])) hrep
    refine ⟨s', ?_, ?_⟩
    · show (e :: es).foldlM BufferTokSet.add s = some s'
      rw [List.foldlM_cons, hadd]
      exact hall
    · simpa using hrep'

theorem route_mem (t : List Nat × List Nat × List Nat) (e x : Nat) :
    (x ∈ (route t e).1 ∨ x ∈ (route t e).2.1 ∨ x ∈ (route t e).2.2) ↔
      ((x ∈ t.1 ∨ x ∈ t.2.1 ∨ x ∈ t.2.2) ∨ x = e) := by
  unfold route
  split_ifs <;> simp <;> tauto

theorem route_len (t : List Nat × List Nat × List Nat) (e : Nat) :
    (route t e).1.length + (route t e).2.1.length + (route t e).2.2.length
      = t.1.length + t.2.1.length + t.2.2.length + 1 := by
  unfold route
  split_ifs <;> simp <;> omega

theorem foldl_route_mem :
    ∀ (l : List Nat) (t : List Nat × List Nat × List Nat) (x : Nat),
      (x ∈ (l.foldl route t).1 ∨ x ∈ (l.foldl route t).2.1 ∨
        x ∈ (l.foldl route t).2.2) ↔
      ((x ∈ t.1 ∨ x ∈ t.2.1 ∨ x ∈ t.2.2) ∨ x ∈ l)
  | [], t, x => by simp
  | e :: es, t, x => by
    rw [List.foldl_cons]
    rw [foldl_route_mem es (route t e) x]
    rw [route_mem t e x]
    simp
    tauto

theorem foldl_route_len :
    ∀ (l : List Nat) (t : List Nat × List Nat × List Nat),
      (l.foldl route t).1.length + (l.foldl route t).2.1.length +
        (l.foldl route t).2.2.length
      = t.1.length + t.2.1.length + t.2.2.length + l.length
  | [], t => by simp
  | e :: es, t => by
    rw [List.foldl_cons]
    rw [foldl_route_len es (route t e)]
    rw [route_len t e]
    simp
    omega

theorem segModel_eq (l : List Nat) :
    segModel l = (l.foldl route ([], [], [])).1 ++
      ((l.foldl route ([], [], [])).2.1 ++ (l.foldl route ([], [], [])).2.2) := by
  unfold segModel
  rw [List.append_assoc]

theorem segModel_mem (l : List Nat) (x : Nat) : x ∈ segModel l ↔ x ∈ l := by
  rw [segModel_eq]
  simp only [List.mem_append]
  rw [foldl_route_mem l ([], [], []) x]
  simp

theorem segModel_length (l : List Nat) : (segModel l).length = l.length := by
  rw [segModel_eq]
  simp only [List.length_append]
  have := foldl_route_len l ([], [], [])
  simp at this
  omega

/-- **C1**: for every sequence of insertions of identifiers `≤ 16777215` into
a fresh `BufferTokSet`, no insertion panics, and reading back any logical
index returns exactly the element that the segment layout (`segModel`: the
one-byte segment, then the two-byte segment, then the three-byte segment,
each in insertion order) places there.  In particular every inserted
identifier — whatever magnitude classes are interleaved around it — sits at
its logical index and is returned unchanged by `get`. -/
theorem c1_insert_get_roundtrip (l : List Nat) (hl : ∀ e ∈ l, e ≤ 16777215) :
    ∃ s, BufferTokSet.new.addAll l = some s ∧
      (∀ i, i < (segModel l).length → s.get i = (segModel l).getD i 0) ∧
      (∀ x, x ∈ l → x ∈ segModel l) := by
  obtain ⟨s, hall, hrep⟩ := addAll_segRep l BufferTokSet.new [] [] [] hl segRep_new
  refine ⟨s, hall, ?_, ?_⟩
  · intro i hi
    have hlen : (segModel l).length
        = (l.foldl route ([], [], [])).1.length +
          (l.foldl route ([], [], [])).2.1.length +
          (l.foldl route ([], [], [])).2.2.length := by
      rw [segModel_eq]
      simp
      omega
    have := hrep.get_eq i (by omega)
    rw [this, segModel_eq, List.append_assoc]
  · intro x hx
    exact (segModel_mem l x).mpr hx

/-- Witness for C1 at a concrete insertion sequence mixing all three
magnitude classes. -/
theorem c1_insert_get_roundtrip_witness :
    (∀ e ∈ [70000, 1, 300, 42, 2], e ≤ 16777215) ∧
      (∃ s, BufferTokSet.new.addAll [70000, 1, 300, 42, 2] = some s ∧
        (∀ i, i < (segModel [70000, 1, 300, 42, 2]).length →
          s.get i = (segModel [70000, 1, 300, 42, 2]).getD i 0) ∧
        (∀ x, x ∈ [70000, 1, 300, 42, 2] → x ∈ segModel [70000, 1, 300, 42, 2])) :=
  ⟨by decide, c1_insert_get_roundtrip _ (by decide)⟩

/-- **C8**: after any sequence of insertions into a fresh `BufferTokSet`,
`length` (the element count `c1 + c2 + remaining/3`) equals the number of
insertions, and any successful `choose` (sampling) returns an identifier that
was inserted. -/
theorem c8_count_and_sample (l : List Nat) (hl : ∀ e ∈ l, e ≤ 16777215) :
    ∃ s, BufferTokSet.new.addAll l = some s ∧ s.length = l.length ∧
      ∀ rng x rng', s.choose rng = some (x, rng') → x ∈ l := by
  obtain ⟨s, hall, hrep⟩ := addAll_segRep l BufferTokSet.new [] [] [] hl segRep_new
  have hflat := foldl_route_len l ([], [], [])
  have hmemflat := foldl_route_mem l ([], [], [])
  rcases hfold : l.foldl route ([], [], []) with ⟨a, b, c⟩
  rw [hfold] at hrep hflat hmemflat
  have hrep2 : SegRep s a b c := hrep
  have hflat2 : a.length + b.length + c.length = l.length := by
    simpa using hflat
  have hmem2 : ∀ x : Nat, (x ∈ a ∨ x ∈ b ∨ x ∈ c) → x ∈ l := by
    intro x hx
    have hr := (hmemflat x).mp hx
    simpa using hr
  have hslen : s.length = l.length := by
    rw [hrep2.length_eq]
    omega
  refine ⟨s, hall, hslen, ?_⟩
  intro rng x rng' hch
  unfold BufferTokSet.choose at hch
  by_cases hz : s.length = 0
  · rw [if_pos hz] at hch
    cases hch
  · rw [if_neg hz] at hch
    have hx : x = s.get (rng 0 % s.length) := by
      cases hch
      rfl
    have hpos := Nat.mod_lt (rng 0) (Nat.pos_of_ne_zero hz)
    have hidx : rng 0 % s.length < a.length + b.length + c.length := by
      have := hrep2.length_eq
      omega
    rw [hx, hrep2.get_eq _ hidx]
    have hmem : (a ++ b ++ c).getD (rng 0 % s.length) 0 ∈ a ++ b ++ c :=
      getD_mem_of_lt (by simp; omega)
    apply hmem2
    simpa [List.mem_append, or_assoc] using hmem

/-- Witness for C8 at a concrete insertion sequence. -/
theorem c8_count_and_sample_witness :
    (∀ e ∈ [300, 5, 70000, 5], e ≤ 16777215) ∧
      (∃ s, BufferTokSet.new.addAll [300, 5, 70000, 5] = some s ∧
        s.length = [300, 5, 70000, 5].length ∧
        ∀ rng x rng', s.choose rng = some (x, rng') → x ∈ [300, 5, 70000, 5]) :=
  ⟨by decide, c8_count_and_sample _ (by decide)⟩

theorem add_none_of_gt (s : BufferTokSet) {e : Nat} (he : 16777215 < e) :
    s.add e = none := by
  unfold BufferTokSet.add
  rw [if_neg (by intro hcon; omega), if_neg (by intro hcon; omega),
    if_neg (by omega)]

/-- **C9**: on any well-formed (reachable) multiset state — including states
whose one-byte or two-byte segment is full, since `SegRep` places no bound on
the segment lists — `add` succeeds exactly when the inserted identifier is
`≤ 16777215` (adding one occurrence), and is the fatal `panic!` (`none`)
exactly when the identifier exceeds `16777215`. -/
theorem c9_add_succeeds_iff (s : BufferTokSet) (l1 l2 l3 : List Nat) (e : Nat)
    (h : SegRep s l1 l2 l3) :
    ((s.add e).isSome ↔ e ≤ 16777215) ∧
      ∀ s', s.add e = some s' → s'.length = s.length + 1 := by
  constructor
  · constructor
    · intro hs
      by_contra hgt
      rw [add_none_of_gt s (by omega)] at hs
      cases hs
    · intro he
      obtain ⟨s', hadd, -⟩ := h.add_some he
      rw [hadd]
      rfl
  · intro s' hadd
    by_cases he : e ≤ 16777215
    · obtain ⟨s'', hadd', hrep'⟩ := h.add_some he
      rw [hadd] at hadd'
      have hs : s' = s'' := by
        cases hadd'
        rfl
      subst hs
      rw [hrep'.length_eq, h.length_eq, route_len]
    · rw [add_none_of_gt s (by omega)] at hadd
      cases hadd

/-- Witness for C9: the empty buffer represents `([], [], [])`, on which a
small insertion succeeds and a 4-byte identifier is rejected. -/
theorem c9_add_succeeds_iff_witness :
    SegRep BufferTokSet.new [] [] [] ∧
      (((BufferTokSet.new.add 7).isSome ↔ 7 ≤ 16777215) ∧
        ∀ s', BufferTokSet.new.add 7 = some s' →
          s'.length = BufferTokSet.new.length + 1) :=
  ⟨by decide, c9_add_succeeds_iff BufferTokSet.new [] [] [] 7 (by decide)⟩

/-! ### The dictionary (`Dict` in `markov.rs`) -/

abbrev Token := Option String

/-- `Dict`: interning dictionary.  `tokenids` models the
`HashMap<Arc<Token>, TokID>`, `entries` the `Vec<Arc<Token>>`. -/
structure Dict where
  tokenids : List (Token × Nat)
  entries : List Token
deriving DecidableEq

def Dict.new : Dict := ⟨[], []⟩

/-- `Dict::tokid`: return the existing id, or assign `entries.len()` and
record the mapping in both directions. -/
def Dict.tokid (d : Dict) (token : Token) : Nat × Dict :=
  match alookup d.tokenids token with
  | some found => (found, d)
  | none =>
    (d.entries.length,
      ⟨aupsert d.tokenids token d.entries.length, d.entries ++ [token]⟩)

/-- `Dict::entry`: inverse lookup. -/
def Dict.entry (d : Dict) (token_id : Nat) : Option Token :=
  d.entries[token_id]?

/-- The dictionary invariant: the forward map holds exactly the inverse of
the `entries` vector. -/
def DictInv (d : Dict) : Prop :=
  ∀ t i, alookup d.tokenids t = some i ↔ d.entries[i]? = some t

theorem dictInv_new : DictInv Dict.new := by
  intro t i
  simp [Dict.new, alookup]

theorem alookup_aupsert {α β : Type} [DecidableEq α]
    (l : List (α × β)) (k : α) (v : β) (k' : α) :
    alookup (aupsert l k v) k' = if k = k' then some v else alookup l k' := by
  induction l with
  | nil => simp [alookup, aupsert]
  | cons kv rest ih =>
    obtain ⟨k0, v0⟩ := kv
    simp only [aupsert]
    by_cases h0 : k0 = k
    · subst h0
      simp only [if_pos rfl, alookup]
      by_cases h1 : k0 = k'
      · subst h1
        simp
      · rw [if_neg h1, if_neg (fun h => h1 h), if_neg h1]
    · rw [if_neg h0]
      simp only [alookup]
      by_cases h1 : k0 = k'
      · subst h1
        rw [if_pos rfl, if_neg (fun h2 : k = k0 => h0 h2.symm), if_pos rfl]
      · rw [if_neg h1, ih]
        by_cases h2 : k = k'
        · rw [if_pos h2, if_pos h2]
        · rw [if_neg h2, if_neg h2, if_neg h1]

theorem tokid_inv {d : Dict} (h : DictInv d) (t : Token) :
    DictInv (d.tokid t).2 := by
  unfold Dict.tokid
  cases hl : alookup d.tokenids t with
  | some found => exact h
  | none =>
    intro t' i
    simp only [alookup_aupsert]
    by_cases ht : t = t'
    · subst ht
      rw [if_pos rfl]
      constructor
      · intro hsome
        have : d.entries.length = i := by
          cases hsome
          rfl
        subst this
        rw [List.getElem?_append_right (by omega)]
        simp
      · intro hsome
        by_cases hi : i < d.entries.length
        · rw [List.getElem?_append_left hi] at hsome
          have := (h t i).mpr hsome
          rw [hl] at this
          cases this
        · rw [List.getElem?_append_right (by omega)] at hsome
          have hlen : i - d.entries.length < 1 :=
            (List.getElem?_eq_some_iff.mp hsome).1
          have : i = d.entries.length := by omega
          rw [this]
    · rw [if_neg ht]
      rw [h t' i]
      constructor
      · intro hsome
        have hi : i < d.entries.length := (List.getElem?_eq_some_iff.mp hsome).1
        rw [List.getElem?_append_left hi]
        exact hsome
      · intro hsome
        by_cases hi : i < d.entries.length
        · rw [List.getElem?_append_left hi] at hsome
          exact hsome
        · rw [List.getElem?_append_right (by omega)] at hsome
          have hlen : i - d.entries.length < 1 :=
            (List.getElem?_eq_some_iff.mp hsome).1
          have h0 : i - d.entries.length = 0 := by omega
          rw [h0] at hsome
          simp at hsome
          exact absurd hsome ht

theorem tokid_found {d : Dict} (h : DictInv d) {t : Token} {i : Nat}
    (hi : d.entries[i]? = some t) : d.tokid t = (i, d) := by
  have := (h t i).mpr hi
  unfold Dict.tokid
  rw [this]

theorem tokid_fresh {d : Dict} {t : Token}
    (hl : alookup d.tokenids t = none) :
    d.tokid t = (d.entries.length,
      ⟨aupsert d.tokenids t d.entries.length, d.entries ++ [t]⟩) := by
  unfold Dict.tokid
  rw [hl]

theorem tokid_self_lookup {d : Dict} (t : Token) :
    alookup (d.tokid t).2.tokenids t = some (d.tokid t).1 := by
  unfold Dict.tokid
  cases hl : alookup d.tokenids t with
  | some found => exact hl
  | none =>
    simp [alookup_aupsert]

theorem tokid_lt {d : Dict} (h : DictInv d) (t : Token) :
    (d.tokid t).1 < (d.tokid t).2.entries.length := by
  unfold Dict.tokid
  cases hl : alookup d.tokenids t with
  | some found =>
    have := (h t found).mp hl
    exact (List.getElem?_eq_some_iff.mp this).1
  | none => simp

theorem tokid_entries_mono {d : Dict} (t : Token) :
    ∃ tail, (d.tokid t).2.entries = d.entries ++ tail ∧
      (tail = [] ∨ tail = [t]) := by
  unfold Dict.tokid
  cases alookup d.tokenids t with
  | some found => exact ⟨[], by simp, Or.inl rfl⟩
  | none => exact ⟨[t], rfl, Or.inr rfl⟩

theorem tokid_idem (d : Dict) (t : Token) :
    (d.tokid t).2.tokid t = ((d.tokid t).1, (d.tokid t).2) := by
  cases hr : d.tokid t with
  | mk i d' =>
    have h : alookup d'.tokenids t = some i := by
      have hs := @tokid_self_lookup d t
      rw [hr] at hs
      exact hs
    simp [Dict.tokid, h]

/-- **C7 counterexample**: interning another string before the sentinel gives
the sentinel identifier 1, not 0 — the claim's "the sentinel token always has
identifier 0" fails for this operation sequence. -/
theorem c7_counterexample :
    ((Dict.new.tokid (some "a")).2.tokid none).1 = 1 ∧
      ((Dict.new.tokid (some "a")).2.tokid none).1 ≠ 0 := by
  decide

/-- **C7 (amended)**: for every dictionary (satisfying the interning
invariant) and operation sequence: interning the same string twice returns
the same identifier; interning distinct strings returns distinct identifiers;
`tokid (entries[i]) = i` for every assigned `i`; and the sentinel token
receives identifier 0 whenever it is interned into a dictionary with no prior
entries (which every chain ingestion does, by interning the sentinel first);
it is not 0 in general (see the counterexample). -/
theorem c7_dict_laws :
    (∀ (d : Dict) (t : Token), ((d.tokid t).2.tokid t).1 = (d.tokid t).1) ∧
    (∀ (d : Dict) (t t' : Token), DictInv d → t ≠ t' →
      ((d.tokid t).2.tokid t').1 ≠ (d.tokid t).1) ∧
    (∀ (d : Dict) (i : Nat) (t : Token), DictInv d → d.entries[i]? = some t →
      (d.tokid t).1 = i) ∧
    (∀ d : Dict, DictInv d → d.entries = [] → (d.tokid none).1 = 0) := by
  refine ⟨?_, ?_, ?_, ?_⟩
  · intro d t
    rw [tokid_idem]
  · intro d t t' h hne
    cases hr : d.tokid t with
    | mk i d' =>
      have hinv' : DictInv d' := by
        have := tokid_inv h t
        rw [hr] at this
        exact this
      have hself : alookup d'.tokenids t = some i := by
        have hs := @tokid_self_lookup d t
        rw [hr] at hs
        exact hs
      have hit : d'.entries[i]? = some t := (hinv' t i).mp hself
      show (d'.tokid t').1 ≠ i
      unfold Dict.tokid
      cases hl' : alookup d'.tokenids t' with
      | some f =>
        intro heq
        simp at heq
        subst heq
        have := (hinv' t' f).mp hl'
        rw [hit] at this
        cases this
        exact hne rfl
      | none =>
        have hlt : i < d'.entries.length := (List.getElem?_eq_some_iff.mp hit).1
        simp
        omega
  · intro d i t h hi
    rw [tokid_found h hi]
  · intro d h hempty
    cases hl : alookup d.tokenids none with
    | some i =>
      have := (h none i).mp hl
      rw [hempty] at this
      simp at this
    | none =>
      rw [tokid_fresh hl]
      simp [hempty]

/-- Witness for C7 at concrete dictionaries, discharging the invariant
hypotheses. -/
theorem c7_dict_laws_witness :
    (((Dict.new.tokid (some "a")).2.tokid (some "a")).1
        = (Dict.new.tokid (some "a")).1) ∧
    (DictInv Dict.new ∧ (some "a" : Token) ≠ some "b" ∧
      ((Dict.new.tokid (some "a")).2.tokid (some "b")).1
        ≠ (Dict.new.tokid (some "a")).1) ∧
    (DictInv (Dict.new.tokid (some "a")).2 ∧
      (Dict.new.tokid (some "a")).2.entries[0]? = some (some "a") ∧
      ((Dict.new.tokid (some "a")).2.tokid (some "a")).1 = 0) ∧
    (DictInv Dict.new ∧ Dict.new.entries = [] ∧ (Dict.new.tokid none).1 = 0) :=
  ⟨c7_dict_laws.1 Dict.new (some "a"),
   ⟨dictInv_new, by decide,
     c7_dict_laws.2.1 Dict.new (some "a") (some "b") dictInv_new (by decide)⟩,
   ⟨tokid_inv dictInv_new (some "a"), by decide,
     c7_dict_laws.2.2.1 (Dict.new.tokid (some "a")).2 0 (some "a")
       (tokid_inv dictInv_new (some "a")) (by decide)⟩,
   ⟨dictInv_new, rfl, c7_dict_laws.2.2.2 Dict.new dictInv_new rfl⟩⟩

/-! ### Transition index, entry index, chain -/

/-- `NextTokens`: the pair of multisets attached to one context. -/
structure NextTokens where
  forward : BufferTokSet
  reverse : BufferTokSet
deriving DecidableEq

def NextTokens.new : NextTokens := ⟨BufferTokSet.new, BufferTokSet.new⟩

/-- `TokenPaths`: the two-level transition index
`HashMap<TokID, HashMap<TokID, NextTokens>>`. -/
structure TokenPaths where
  maps : List (Nat × List (Nat × NextTokens))
deriving DecidableEq

def TokenPaths.new : TokenPaths := ⟨[]⟩

/-- `TokenPaths::append`: find or create the context slot, then add the
forward and reverse values to its multisets (either add may panic). -/
def TokenPaths.append (tp : TokenPaths) (pfx : Nat × Nat)
    (forward_value reverse_value : Nat) : Option TokenPaths :=
  let nested := (alookup tp.maps pfx.1).getD []
  let toksets := (alookup nested pfx.2).getD NextTokens.new
  match toksets.forward.add forward_value with
  | none => none
  | some fwd =>
    match toksets.reverse.add reverse_value with
    | none => none
    | some rev =>
      some ⟨aupsert tp.maps pfx.1 (aupsert nested pfx.2 ⟨fwd, rev⟩)⟩

/-- `TokenPaths::get`. -/
def TokenPaths.get (tp : TokenPaths) (pfx : Nat × Nat) : Option NextTokens :=
  match alookup tp.maps pfx.1 with
  | none => none
  | some nested => alookup nested pfx.2

inductive Direction where
  | forward
  | reverse
deriving DecidableEq

/-- `Chain`: the dictionary, the transition index and the entry index. -/
structure Chain where
  dict : Dict
  paths : TokenPaths
  entries : List (Nat × BufferTokSet)
deriving DecidableEq

def Chain.new : Chain := ⟨Dict.new, TokenPaths.new, []⟩

/-- Intern a list of words left to right, threading the dictionary
(`tokens.into_iter().map(|t| self.dict.tokid(&Some(t)))`). -/
def internTokens : Dict → List String → List Nat × Dict
  | d, [] => ([], d)
  | d, t :: ts =>
    let r := d.tokid (some t)
    let rest := internTokens r.2 ts
    (r.1 :: rest.1, rest.2)

/-- `toks.windows(4)` specialised to the 4-element destructuring the source
uses. -/
def windows4 : List Nat → List (Nat × Nat × Nat × Nat)
  | a :: b :: c :: d :: rest => (a, b, c, d) :: windows4 (b :: c :: d :: rest)
  | _ => []

/-- The padded token sequence built by `Chain::feed`:
`[none, none, none, tok_1, ..., tok_n, none, none]` (as interned ids). -/
def Chain.feedToks (ch : Chain) (tokens : List String) : List Nat :=
  [(ch.dict.tokid none).1, (ch.dict.tokid none).1, (ch.dict.tokid none).1] ++
    (internTokens (ch.dict.tokid none).2 tokens).1 ++
    [(ch.dict.tokid none).1, (ch.dict.tokid none).1]

/-- One iteration of the window loop in `Chain::feed`: record the transition
`(b, c) → d` forward / `→ a` backward, and `b → c` in the entry index. -/
def feedStep (ch : Chain) (w : Nat × Nat × Nat × Nat) : Option Chain :=
  match ch.paths.append (w.2.1, w.2.2.1) w.2.2.2 w.1 with
  | none => none
  | some paths1 =>
    let etokset := (alookup ch.entries w.2.1).getD BufferTokSet.new
    match etokset.add w.2.2.1 with
    | none => none
    | some etok1 => some ⟨ch.dict, paths1, aupsert ch.entries w.2.1 etok1⟩

/-- The window loop of `Chain::feed`. -/
def feedWindows : Chain → List (Nat × Nat × Nat × Nat) → Option Chain
  | ch, [] => some ch
  | ch, w :: rest =>
    match feedStep ch w with
    | none => none
    | some ch1 => feedWindows ch1 rest

/-- `Chain::feed`: no-op on an empty token list, otherwise intern the
sentinel and all words, build the padded sequence, and process every 4-token
window. -/
def Chain.feed (ch : Chain) (tokens : List String) : Option Chain :=
  if tokens = [] then some ch
  else
    feedWindows
      { ch with dict := (internTokens (ch.dict.tokid none).2 tokens).2 }
      (windows4 (ch.feedToks tokens))

/-- `str::split_whitespace` on the character list: split on whitespace runs,
discarding empty fragments. -/
def splitWsAux : List Char → List Char → List String
  | [], acc => if acc = [] then [] else [String.mk acc.reverse]
  | c :: rest, acc =>
    if c.isWhitespace then
      if acc = [] then splitWsAux rest []
      else String.mk acc.reverse :: splitWsAux rest []
    else splitWsAux rest (c :: acc)

def splitWs (s : String) : List String := splitWsAux s.toList []

/-- `Chain::feed_str`: split the line on whitespace, drop empty words, feed. -/
def Chain.feed_str (ch : Chain) (s : String) : Option Chain :=
  ch.feed ((splitWs s).filter (fun w => !w.isEmpty))

/-- A chain built by ingesting a list of lines into a fresh chain. -/
def buildChain (lines : List String) : Option Chain :=
  lines.foldlM Chain.feed_str Chain.new

/-- The elements of the forward multiset of a context. -/
def Chain.forwardElems (ch : Chain) (pfx : Nat × Nat) : List Nat :=
  match ch.paths.get pfx with
  | some nt => nt.forward.elems
  | none => []

/-- The elements of the reverse multiset of a context. -/
def Chain.reverseElems (ch : Chain) (pfx : Nat × Nat) : List Nat :=
  match ch.paths.get pfx with
  | some nt => nt.reverse.elems
  | none => []

/-- The elements of the entry-index multiset of a token. -/
def Chain.entryElems (ch : Chain) (b : Nat) : List Nat :=
  match alookup ch.entries b with
  | some s => s.elems
  | none => []

/-- All multisets in the transition index are well formed. -/
def PathsWF (tp : TokenPaths) : Prop :=
  ∀ kv ∈ tp.maps, ∀ kv2 ∈ kv.2, SWF kv2.2.forward ∧ SWF kv2.2.reverse

/-- All multisets in the entry index are well formed. -/
def EntriesWF (es : List (Nat × BufferTokSet)) : Prop :=
  ∀ kv ∈ es, SWF kv.2

/-- Reachability invariant of a chain: the dictionary invariant, all packed
multisets well formed, every entry-index key a valid dictionary id, and every
dictionary word free of whitespace. -/
def ChainInv (ch : Chain) : Prop :=
  DictInv ch.dict ∧ PathsWF ch.paths ∧ EntriesWF ch.entries ∧
    (∀ kv ∈ ch.entries, kv.1 < ch.dict.entries.length) ∧
    (∀ t ∈ ch.dict.entries, ∀ s, t = some s →
      ∀ c ∈ s.toList, c.isWhitespace = false)

theorem alookup_mem {α β : Type} [DecidableEq α] :
    ∀ {l : List (α × β)} {k : α} {v : β}, alookup l k = some v → (k, v) ∈ l
  | [], k, v, h => by simp [alookup] at h
  | (k0, v0) :: rest, k, v, h => by
    simp only [alookup] at h
    by_cases h0 : k0 = k
    · rw [if_pos h0] at h
      subst h0
      cases h
      simp
    · rw [if_neg h0] at h
      exact List.mem_cons_of_mem _ (alookup_mem h)

theorem mem_aupsert {α β : Type} [DecidableEq α] :
    ∀ {l : List (α × β)} {k : α} {v : β} {kv : α × β},
      kv ∈ aupsert l k v → kv = (k, v) ∨ kv ∈ l
  | [], k, v, kv, h => by
    simp [aupsert] at h
    exact Or.inl h
  | (k0, v0) :: rest, k, v, kv, h => by
    simp only [aupsert] at h
    by_cases h0 : k0 = k
    · rw [if_pos h0] at h
      rcases List.mem_cons.mp h with h1 | h1
      · exact Or.inl h1
      · exact Or.inr (List.mem_cons_of_mem _ h1)
    · rw [if_neg h0] at h
      rcases List.mem_cons.mp h with h1 | h1
      · exact Or.inr (by simp [h1])
      · rcases mem_aupsert h1 with h2 | h2
        · exact Or.inl h2
        · exact Or.inr (List.mem_cons_of_mem _ h2)

theorem swf_new : SWF BufferTokSet.new := ⟨[], [], [], segRep_new⟩

theorem SWF.add_elems {s : BufferTokSet} (h : SWF s) {e : Nat}
    (he : e ≤ 16777215) :
    ∃ s', s.add e = some s' ∧ SWF s' ∧ e ∈ s'.elems ∧
      ∀ x ∈ s.elems, x ∈ s'.elems := by
  obtain ⟨l1, l2, l3, hrep⟩ := h
  obtain ⟨s', hadd, hrep'⟩ := hrep.add_some he
  refine ⟨s', hadd, ⟨_, _, _, hrep'⟩, ?_, ?_⟩
  · rw [hrep'.elems_eq]
    have := (route_mem (l1, l2, l3) e e).mpr (Or.inr rfl)
    rcases this with h1 | h1 | h1 <;> simp [h1]
  · intro x hx
    rw [hrep.elems_eq] at hx
    rw [hrep'.elems_eq]
    have hx3 : x ∈ l1 ∨ x ∈ l2 ∨ x ∈ l3 := by
      simpa [List.mem_append, or_assoc] using hx
    have := (route_mem (l1, l2, l3) e x).mpr (Or.inl hx3)
    rcases this with h1 | h1 | h1 <;> simp [h1]

theorem nt0_eq (tp : TokenPaths) (p : Nat × Nat) :
    (alookup ((alookup tp.maps p.1).getD []) p.2).getD NextTokens.new
      = (tp.get p).getD NextTokens.new := by
  unfold TokenPaths.get
  cases alookup tp.maps p.1 <;> simp [alookup]

theorem get_after_append {tp : TokenPaths} {p : Nat × Nat} {f r : Nat}
    {tp' : TokenPaths} (h : tp.append p f r = some tp') :
    ∃ fwd rev, ((tp.get p).getD NextTokens.new).forward.add f = some fwd ∧
      ((tp.get p).getD NextTokens.new).reverse.add r = some rev ∧
      tp'.get p = some ⟨fwd, rev⟩ ∧
      (∀ q, q ≠ p → tp'.get q = tp.get q) ∧
      tp'.maps = aupsert tp.maps p.1
        (aupsert ((alookup tp.maps p.1).getD []) p.2 ⟨fwd, rev⟩) := by
  simp only [TokenPaths.append] at h
  split at h
  · exact Option.noConfusion h
  · rename_i fwd hf
    split at h
    · exact Option.noConfusion h
    · rename_i rev hrev
      injection h with h2
      subst h2
      rw [nt0_eq] at hf hrev
      refine ⟨fwd, rev, hf, hrev, ?_, ?_, rfl⟩
      · simp [TokenPaths.get, alookup_aupsert]
      · intro q hq
        obtain ⟨p1, p2⟩ := p
        obtain ⟨q1, q2⟩ := q
        simp only [TokenPaths.get, alookup_aupsert]
        by_cases h1 : p1 = q1
        · subst h1
          rw [if_pos rfl]
          have h2 : ¬p2 = q2 := by
            intro h2
            subst h2
            exact hq rfl
          cases hm : alookup tp.maps p1 with
          | none => simp [alookup_aupsert, if_neg h2, alookup]
          | some nested => simp [alookup_aupsert, if_neg h2]
        · rw [if_neg h1]

theorem add_some_le {s s' : BufferTokSet} {e : Nat} (h : s.add e = some s') :
    e ≤ 16777215 := by
  by_contra hgt
  rw [add_none_of_gt s (by omega)] at h
  cases h

theorem SWF.add_some_elems {s s' : BufferTokSet} {e : Nat} (h : SWF s)
    (hadd : s.add e = some s') :
    SWF s' ∧ e ∈ s'.elems ∧ ∀ x ∈ s.elems, x ∈ s'.elems := by
  obtain ⟨s'', hadd'', hswf, hmem, hmono⟩ := h.add_elems (add_some_le hadd)
  rw [hadd] at hadd''
  cases hadd''
  exact ⟨hswf, hmem, hmono⟩

theorem pathsWF_get {tp : TokenPaths} (h : PathsWF tp) {p : Nat × Nat}
    {nt : NextTokens} (hg : tp.get p = some nt) :
    SWF nt.forward ∧ SWF nt.reverse := by
  unfold TokenPaths.get at hg
  cases hm : alookup tp.maps p.1 with
  | none => rw [hm] at hg; cases hg
  | some nested =>
    rw [hm] at hg
    exact h (p.1, nested) (alookup_mem hm) (p.2, nt) (alookup_mem hg)

theorem pathsWF_getD {tp : TokenPaths} (h : PathsWF tp) (p : Nat × Nat) :
    SWF ((tp.get p).getD NextTokens.new).forward ∧
      SWF ((tp.get p).getD NextTokens.new).reverse := by
  cases hg : tp.get p with
  | none => simpa using ⟨swf_new, swf_new⟩
  | some nt => simpa using pathsWF_get h hg

theorem entriesWF_getD {es : List (Nat × BufferTokSet)} (h : EntriesWF es)
    (b : Nat) : SWF ((alookup es b).getD BufferTokSet.new) := by
  cases hm : alookup es b with
  | none => simpa using swf_new
  | some s => simpa using h (b, s) (alookup_mem hm)

theorem pathsWF_append {tp tp' : TokenPaths} {p : Nat × Nat} {f r : Nat}
    (h : PathsWF tp) (ha : tp.append p f r = some tp') : PathsWF tp' := by
  obtain ⟨fwd, rev, hf, hr, -, -, hmaps⟩ := get_after_append ha
  obtain ⟨hswf_f, hswf_r⟩ := pathsWF_getD h p
  obtain ⟨hswf_f', -, -⟩ := hswf_f.add_some_elems hf
  obtain ⟨hswf_r', -, -⟩ := hswf_r.add_some_elems hr
  intro kv hkv kv2 hkv2
  rw [hmaps] at hkv
  rcases mem_aupsert hkv with h1 | h1
  · have hkv2' : kv2 ∈ aupsert ((alookup tp.maps p.1).getD []) p.2 ⟨fwd, rev⟩ := by
      rw [h1] at hkv2
      exact hkv2
    rcases mem_aupsert hkv2' with h2 | h2
    · rw [h2]
      exact ⟨hswf_f', hswf_r'⟩
    · cases hm : alookup tp.maps p.1 with
      | none =>
        rw [hm] at h2
        simp at h2
      | some nested =>
        rw [hm] at h2
        simp at h2
        exact h (p.1, nested) (alookup_mem hm) kv2 h2
  · exact h kv h1 kv2 hkv2

theorem feedStep_spec {ch ch' : Chain} {a b c d : Nat}
    (hP : PathsWF ch.paths) (hE : EntriesWF ch.entries)
    (h : feedStep ch (a, b, c, d) = some ch') :
    ch'.dict = ch.dict ∧ PathsWF ch'.paths ∧ EntriesWF ch'.entries ∧
    d ∈ ch'.forwardElems (b, c) ∧ a ∈ ch'.reverseElems (b, c) ∧
    c ∈ ch'.entryElems b ∧
    (∀ p x, x ∈ ch.forwardElems p → x ∈ ch'.forwardElems p) ∧
    (∀ p x, x ∈ ch.reverseElems p → x ∈ ch'.reverseElems p) ∧
    (∀ k x, x ∈ ch.entryElems k → x ∈ ch'.entryElems k) ∧
    (∀ kv ∈ ch'.entries, kv.1 = b ∨ kv.1 ∈ ch.entries.map Prod.fst) := by
  simp only [feedStep] at h
  split at h
  · exact Option.noConfusion h
  · rename_i paths1 hap
    split at h
    · exact Option.noConfusion h
    · rename_i etok1 hadd
      injection h with h2
      subst h2
      obtain ⟨fwd, rev, hf, hr, hget, hother, -⟩ := get_after_append hap
      obtain ⟨hswf_f, hswf_r⟩ := pathsWF_getD hP (b, c)
      obtain ⟨hswf_f', hmem_f, hmono_f⟩ := hswf_f.add_some_elems hf
      obtain ⟨hswf_r', hmem_r, hmono_r⟩ := hswf_r.add_some_elems hr
      have hswf_e := entriesWF_getD hE b
      obtain ⟨hswf_e', hmem_e, hmono_e⟩ := hswf_e.add_some_elems hadd
      refine ⟨rfl, pathsWF_append hP hap, ?_, ?_, ?_, ?_, ?_, ?_, ?_, ?_⟩
      · intro kv hkv
        rcases mem_aupsert hkv with h1 | h1
        · rw [h1]
          exact hswf_e'
        · exact hE kv h1
      · show d ∈ Chain.forwardElems ⟨ch.dict, paths1, _⟩ (b, c)
        unfold Chain.forwardElems
        show d ∈ (match paths1.get (b, c) with
          | some nt => nt.forward.elems | none => [])
        rw [hget]
        exact hmem_f
      · show a ∈ Chain.reverseElems ⟨ch.dict, paths1, _⟩ (b, c)
        unfold Chain.reverseElems
        show a ∈ (match paths1.get (b, c) with
          | some nt => nt.reverse.elems | none => [])
        rw [hget]
        exact hmem_r
      · show c ∈ Chain.entryElems ⟨ch.dict, paths1, _⟩ b
        unfold Chain.entryElems
        simp only [alookup_aupsert, if_pos rfl]
        exact hmem_e
      · intro p x hx
        unfold Chain.forwardElems at hx ⊢
        by_cases hp : p = (b, c)
        · subst hp
          rw [hget]
          cases hg : ch.paths.get (b, c) with
          | none =>
            rw [hg] at hx
            simp at hx
          | some nt =>
            rw [hg] at hx
            apply hmono_f
            rw [hg]
            exact hx
        · rw [hother p hp]
          exact hx
      · intro p x hx
        unfold Chain.reverseElems at hx ⊢
        by_cases hp : p = (b, c)
        · subst hp
          rw [hget]
          cases hg : ch.paths.get (b, c) with
          | none =>
            rw [hg] at hx
            simp at hx
          | some nt =>
            rw [hg] at hx
            apply hmono_r
            rw [hg]
            exact hx
        · rw [hother p hp]
          exact hx
      · intro k x hx
        unfold Chain.entryElems at hx ⊢
        simp only [alookup_aupsert]
        by_cases hk : b = k
        · subst hk
          rw [if_pos rfl]
          cases hg : alookup ch.entries b with
          | none =>
            rw [hg] at hx
            simp at hx
          | some s0 =>
            rw [hg] at hx
            apply hmono_e
            rw [hg]
            exact hx
        · rw [if_neg hk]
          exact hx
      · intro kv hkv
        rcases mem_aupsert hkv with h1 | h1
        · rw [h1]
          simp
        · right
          exact List.mem_map_of_mem Prod.fst h1

theorem feedWindows_spec :
    ∀ (ws : List (Nat × Nat × Nat × Nat)) (ch ch' : Chain),
      PathsWF ch.paths → EntriesWF ch.entries →
      feedWindows ch ws = some ch' →
      ch'.dict = ch.dict ∧ PathsWF ch'.paths ∧ EntriesWF ch'.entries ∧
      (∀ p x, x ∈ ch.forwardElems p → x ∈ ch'.forwardElems p) ∧
      (∀ p x, x ∈ ch.reverseElems p → x ∈ ch'.reverseElems p) ∧
      (∀ k x, x ∈ ch.entryElems k → x ∈ ch'.entryElems k) ∧
      (∀ w ∈ ws, w.2.2.2 ∈ ch'.forwardElems (w.2.1, w.2.2.1) ∧
        w.1 ∈ ch'.reverseElems (w.2.1, w.2.2.1) ∧
        w.2.2.1 ∈ ch'.entryElems w.2.1) ∧
      (∀ kv ∈ ch'.entries,
        kv.1 ∈ ws.map (fun w => w.2.1) ∨ kv.1 ∈ ch.entries.map Prod.fst)
  | [], ch, ch', hP, hE, h => by
    cases h
    exact ⟨rfl, hP, hE, fun _ _ hx => hx, fun _ _ hx => hx, fun _ _ hx => hx,
      by simp, fun kv hkv => Or.inr (List.mem_map_of_mem Prod.fst hkv)⟩
  | w :: rest, ch, ch', hP, hE, h => by
    obtain ⟨a, b, c, d⟩ := w
    simp only [feedWindows] at h
    split at h
    · exact Option.noConfusion h
    · rename_i ch1 hstep
      obtain ⟨hdict1, hP1, hE1, hf1, hr1, he1, hmf1, hmr1, hme1, hkeys1⟩ :=
        feedStep_spec hP hE hstep
      obtain ⟨hdict2, hP2, hE2, hmf2, hmr2, hme2, hadds2, hkeys2⟩ :=
        feedWindows_spec rest ch1 ch' hP1 hE1 h
      refine ⟨hdict2.trans hdict1, hP2, hE2, ?_, ?_, ?_, ?_, ?_⟩
      · intro p x hx
        exact hmf2 p x (hmf1 p x hx)
      · intro p x hx
        exact hmr2 p x (hmr1 p x hx)
      · intro k x hx
        exact hme2 k x (hme1 k x hx)
      · intro w2 hw2
        rcases List.mem_cons.mp hw2 with h1 | h1
        · subst h1
          exact ⟨hmf2 _ _ hf1, hmr2 _ _ hr1, hme2 _ _ he1⟩
        · exact hadds2 w2 h1
      · intro kv hkv
        rcases hkeys2 kv hkv with h1 | h1
        · left
          simp only [List.map_cons]
          exact List.mem_cons_of_mem _ h1
        · obtain ⟨kv0, hkv0, heq⟩ := List.mem_map.mp h1
          rcases hkeys1 kv0 hkv0 with h2 | h2
          · left
            simp only [List.map_cons]
            rw [← heq, h2]
            exact List.mem_cons_self _ _
          · right
            rw [← heq]
            exact h2

theorem internTokens_spec :
    ∀ (ts : List String) (d : Dict), DictInv d →
      DictInv (internTokens d ts).2 ∧
      (∃ tail, (internTokens d ts).2.entries = d.entries ++ tail ∧
        ∀ t ∈ tail, ∃ w ∈ ts, t = some w) ∧
      (∀ i ∈ (internTokens d ts).1, i < (internTokens d ts).2.entries.length)
  | [], d, hinv => by
    refine ⟨hinv, ⟨[], by simp [internTokens], by simp⟩, by simp [internTokens]⟩
  | t :: ts, d, hinv => by
    have hinv1 : DictInv (d.tokid (some t)).2 := tokid_inv hinv (some t)
    obtain ⟨tail0, htail0, -⟩ := @tokid_entries_mono d (some t)
    have htail0w : ∀ x ∈ tail0, ∃ w ∈ t :: ts, x = some w := by
      intro x hx
      unfold Dict.tokid at htail0
      cases hl : alookup d.tokenids (some t) with
      | some found =>
        rw [hl] at htail0
        simp at htail0
        rw [htail0] at hx
        simp at hx
      | none =>
        rw [hl] at htail0
        simp at htail0
        rw [← htail0] at hx
        simp at hx
        exact ⟨t, by simp, hx⟩
    have hlt1 : (d.tokid (some t)).1 < (d.tokid (some t)).2.entries.length :=
      tokid_lt hinv (some t)
    obtain ⟨hinv2, ⟨tail1, htail1, htail1w⟩, hids⟩ :=
      internTokens_spec ts (d.tokid (some t)).2 hinv1
    have hmono : (d.tokid (some t)).2.entries.length ≤
        (internTokens (d.tokid (some t)).2 ts).2.entries.length := by
      rw [htail1]
      simp
    refine ⟨?_, ⟨tail0 ++ tail1, ?_, ?_⟩, ?_⟩
    · show DictInv (internTokens d (t :: ts)).2
      simp only [internTokens]
      exact hinv2
    · show (internTokens d (t :: ts)).2.entries = d.entries ++ (tail0 ++ tail1)
      simp only [internTokens]
      rw [htail1, htail0, List.append_assoc]
    · intro x hx
      rcases List.mem_append.mp hx with h1 | h1
      · exact htail0w x h1
      · obtain ⟨w, hw, hx2⟩ := htail1w x h1
        exact ⟨w, List.mem_cons_of_mem _ hw, hx2⟩
    · intro i hi
      simp only [internTokens] at hi
      rcases List.mem_cons.mp hi with h1 | h1
      · subst h1
        simp only [internTokens]
        omega
      · simp only [internTokens]
        exact hids i h1

theorem windows4_mem :
    ∀ (l : List Nat) (w : Nat × Nat × Nat × Nat), w ∈ windows4 l →
      w.1 ∈ l ∧ w.2.1 ∈ l ∧ w.2.2.1 ∈ l ∧ w.2.2.2 ∈ l
  | [], w, hw => by simp [windows4] at hw
  | [_], w, hw => by simp [windows4] at hw
  | [_, _], w, hw => by simp [windows4] at hw
  | [_, _, _], w, hw => by simp [windows4] at hw
  | a :: b :: c :: d :: rest, w, hw => by
    simp only [windows4] at hw
    rcases List.mem_cons.mp hw with h1 | h1
    · subst h1
      simp
    · obtain ⟨h2, h3, h4, h5⟩ := windows4_mem (b :: c :: d :: rest) w h1
      exact ⟨List.mem_cons_of_mem _ h2, List.mem_cons_of_mem _ h3,
        List.mem_cons_of_mem _ h4, List.mem_cons_of_mem _ h5⟩

theorem feedToks_mem {ch : Chain} {tokens : List String} {x : Nat}
    (hx : x ∈ ch.feedToks tokens) :
    x = (ch.dict.tokid none).1 ∨
      x ∈ (internTokens (ch.dict.tokid none).2 tokens).1 := by
  unfold Chain.feedToks at hx
  simp at hx
  tauto

theorem chainInv_feed {ch ch' : Chain} {tokens : List String}
    (hinv : ChainInv ch)
    (hclean : ∀ w ∈ tokens, ∀ c ∈ w.toList, c.isWhitespace = false)
    (h : ch.feed tokens = some ch') : ChainInv ch' := by
  obtain ⟨hdictInv, hP, hE, hbound, hstrs⟩ := hinv
  unfold Chain.feed at h
  by_cases ht : tokens = []
  · rw [if_pos ht] at h
    cases h
    exact ⟨hdictInv, hP, hE, hbound, hstrs⟩
  · rw [if_neg ht] at h
    have hinv0 : DictInv (ch.dict.tokid none).2 := tokid_inv hdictInv none
    obtain ⟨tail0, htail0, htail0d⟩ := @tokid_entries_mono ch.dict none
    obtain ⟨hinv2, ⟨tail1, htail1, htail1w⟩, hids⟩ :=
      internTokens_spec tokens (ch.dict.tokid none).2 hinv0
    have hlen0 : ch.dict.entries.length ≤ (ch.dict.tokid none).2.entries.length := by
      rw [htail0]
      simp
    have hlen2 : (ch.dict.tokid none).2.entries.length ≤
        (internTokens (ch.dict.tokid none).2 tokens).2.entries.length := by
      rw [htail1]
      simp
    have hn0 : (ch.dict.tokid none).1 <
        (internTokens (ch.dict.tokid none).2 tokens).2.entries.length := by
      have := tokid_lt hdictInv none
      omega
    obtain ⟨hdict', hP', hE', -, -, -, -, hkeys⟩ :=
      feedWindows_spec (windows4 (ch.feedToks tokens))
        { ch with dict := (internTokens (ch.dict.tokid none).2 tokens).2 }
        ch' hP hE h
    refine ⟨?_, hP', hE', ?_, ?_⟩
    · rw [hdict']
      exact hinv2
    · intro kv hkv
      rw [hdict']
      show kv.1 < (internTokens (ch.dict.tokid none).2 tokens).2.entries.length
      rcases hkeys kv hkv with h1 | h1
      · obtain ⟨w, hw, heq⟩ := List.mem_map.mp h1
        have hmem := (windows4_mem _ w hw).2.1
        rcases feedToks_mem hmem with h2 | h2
        · rw [← heq, h2]
          exact hn0
        · rw [← heq]
          exact hids _ h2
      · obtain ⟨kv0, hkv0, heq⟩ := List.mem_map.mp h1
        have := hbound kv0 hkv0
        rw [← heq]
        omega
    · intro t htmem s hts c hc
      rw [hdict'] at htmem
      rw [htail1, htail0] at htmem
      rcases List.mem_append.mp htmem with h1 | h1
      · rcases List.mem_append.mp h1 with h2 | h2
        · exact hstrs t h2 s hts c hc
        · rcases htail0d with h3 | h3 <;> rw [h3] at h2 <;> simp at h2
          rw [h2] at hts
          cases hts
      · obtain ⟨w, hw, heq⟩ := htail1w t h1
        rw [heq] at hts
        injection hts with hts2
        subst hts2
        exact hclean w hw c hc

theorem splitWsAux_clean :
    ∀ (l acc : List Char), (∀ c ∈ acc, c.isWhitespace = false) →
      ∀ w ∈ splitWsAux l acc, ∀ c ∈ w.toList, c.isWhitespace = false
  | [], acc, hacc, w, hw => by
    simp only [splitWsAux] at hw
    by_cases ha : acc = []
    · rw [if_pos ha] at hw
      simp at hw
    · rw [if_neg ha] at hw
      simp at hw
      subst hw
      intro c hc
      have htl : (String.mk acc.reverse).toList = acc.reverse := rfl
      rw [htl] at hc
      exact hacc c (List.mem_reverse.mp hc)
  | ch :: rest, acc, hacc, w, hw => by
    simp only [splitWsAux] at hw
    by_cases hws : ch.isWhitespace = true
    · rw [if_pos hws] at hw
      by_cases ha : acc = []
      · rw [if_pos ha] at hw
        exact splitWsAux_clean rest [] (by simp) w hw
      · rw [if_neg ha] at hw
        rcases List.mem_cons.mp hw with h1 | h1
        · subst h1
          intro c hc
          have htl : (String.mk acc.reverse).toList = acc.reverse := rfl
          rw [htl] at hc
          exact hacc c (List.mem_reverse.mp hc)
        · exact splitWsAux_clean rest [] (by simp) w h1
    · rw [if_neg hws] at hw
      refine splitWsAux_clean rest (ch :: acc) ?_ w hw
      intro c hc
      rcases List.mem_cons.mp hc with h1 | h1
      · subst h1
        simpa using hws
      · exact hacc c h1

theorem chainInv_new : ChainInv Chain.new := by
  refine ⟨dictInv_new, ?_, ?_, ?_, ?_⟩
  · intro kv hkv
    simp [Chain.new, TokenPaths.new] at hkv
  · intro kv hkv
    simp [Chain.new] at hkv
  · intro kv hkv
    simp [Chain.new] at hkv
  · intro t ht
    simp [Chain.new, Dict.new] at ht

theorem chainInv_feed_str {ch ch' : Chain} {s : String} (hinv : ChainInv ch)
    (h : ch.feed_str s = some ch') : ChainInv ch' := by
  unfold Chain.feed_str at h
  refine chainInv_feed hinv ?_ h
  intro w hw c hc
  have hw2 : w ∈ splitWs s := (List.mem_filter.mp hw).1
  exact splitWsAux_clean s.toList [] (by simp) w hw2 c hc

theorem foldl_feed_str_inv :
    ∀ (lines : List String) (ch ch' : Chain), ChainInv ch →
      List.foldlM Chain.feed_str ch lines = some ch' → ChainInv ch'
  | [], ch, ch', hinv, h => by
    simp only [List.foldlM] at h
    cases h
    exact hinv
  | line :: rest, ch, ch', hinv, h => by
    rw [List.foldlM_cons] at h
    cases hstep : ch.feed_str line with
    | none =>
      rw [hstep] at h
      simp at h
    | some ch1 =>
      rw [hstep] at h
      simp only [Option.bind_eq_bind, Option.some_bind] at h
      exact foldl_feed_str_inv rest ch1 ch' (chainInv_feed_str hinv hstep) h

theorem buildChain_inv {lines : List String} {ch : Chain}
    (h : buildChain lines = some ch) : ChainInv ch :=
  foldl_feed_str_inv lines Chain.new ch chainInv_new h

/-- **C2**: ingesting a non-empty line into any chain reachable by ingestion
records, for every consecutive 4-token window `(a, b, c, d)` of the padded
sequence `[sentinel, sentinel, sentinel, tok_1, ..., tok_n, sentinel,
sentinel]` (`Chain.feedToks`), the token `d` in the forward multiset and `a`
in the reverse multiset of context `(b, c)`, and `c` in the entry-index
multiset of `b`. -/
theorem c2_feed_records_windows (lines : List String) (ch : Chain)
    (line : String) (ch' : Chain)
    (hb : buildChain lines = some ch)
    (hne : (splitWs line).filter (fun w => !w.isEmpty) ≠ [])
    (hf : ch.feed_str line = some ch') :
    ∀ a b c d, (a, b, c, d) ∈ windows4
        (ch.feedToks ((splitWs line).filter (fun w => !w.isEmpty))) →
      d ∈ ch'.forwardElems (b, c) ∧ a ∈ ch'.reverseElems (b, c) ∧
        c ∈ ch'.entryElems b := by
  obtain ⟨hdictInv, hP, hE, -, -⟩ := buildChain_inv hb
  unfold Chain.feed_str Chain.feed at hf
  rw [if_neg hne] at hf
  obtain ⟨-, -, -, -, -, -, hadds, -⟩ := feedWindows_spec
    (windows4 (ch.feedToks ((splitWs line).filter (fun w => !w.isEmpty))))
    { ch with dict := (internTokens (ch.dict.tokid none).2
        ((splitWs line).filter (fun w => !w.isEmpty))).2 }
    ch' hP hE hf
  intro a b c d hw
  exact hadds (a, b, c, d) hw

/-- The chain obtained by ingesting the single line `"a b c"`. -/
def cABC : Chain := (Chain.new.feed_str "a b c").getD Chain.new

/-- Witness for C2: ingesting `"a b c"` into a fresh chain; in particular
(ids: "a" = 1, "b" = 2, "c" = 3) context `(a, b)` has `c` in its forward
multiset and context `(b, c)` has `a` in its reverse multiset. -/
theorem c2_feed_records_windows_witness :
    buildChain [] = some Chain.new ∧
    (splitWs "a b c").filter (fun w => !w.isEmpty) ≠ [] ∧
    Chain.new.feed_str "a b c" = some cABC ∧
    (∀ a b c d, (a, b, c, d) ∈ windows4
        (Chain.new.feedToks ((splitWs "a b c").filter (fun w => !w.isEmpty))) →
      d ∈ cABC.forwardElems (b, c) ∧ a ∈ cABC.reverseElems (b, c) ∧
        c ∈ cABC.entryElems b) ∧
    3 ∈ cABC.forwardElems (1, 2) ∧ 1 ∈ cABC.reverseElems (2, 3) :=
  ⟨by decide, by decide, by decide,
   c2_feed_records_windows [] Chain.new "a b c" cABC (by decide) (by decide)
     (by decide),
   by decide, by decide⟩

/-! ### Generation -/

/-- `Chain::vec_to_string`: join with single spaces (append each word plus a
space, then drop the trailing space). -/
def vec_to_string (vec : List String) : String :=
  let ret := vec.foldl (fun acc s => acc ++ s ++ " ") ""
  if ret.length > 0 then ret.dropRight 1 else ret

/-- The walk of `TokenIter::next`, collected by `take_while(|i| *i != none)`:
sample the multiset of the current context in the walk direction, stop when
the context is unseen (iterator end) or the sentinel is drawn (`take_while`),
otherwise advance the context.  `fuel` bounds the number of pulls; `none`
covers both running out of fuel (a run the Rust program has not finished)
and the panic of sampling an empty multiset. -/
def walkAux (paths : TokenPaths) (dir : Direction) (stop : Nat) :
    Nat → (Nat × Nat) → RNG → Option (List Nat × RNG)
  | 0, _, _ => none
  | fuel + 1, pfx, rng =>
    match paths.get pfx with
    | none => some ([], rng)
    | some toksets =>
      let m := match dir with
        | Direction.forward => toksets.forward
        | Direction.reverse => toksets.reverse
      match m.choose rng with
      | none => none
      | some (choice, rng1) =>
        if choice = stop then some ([], rng1)
        else
          let pfx1 := match dir with
            | Direction.forward => (pfx.2, choice)
            | Direction.reverse => (choice, pfx.1)
          match walkAux paths dir stop fuel pfx1 rng1 with
          | none => none
          | some (rest, rng2) => some (choice :: rest, rng2)

/-- `Chain::generate_from_prefix`: emit the context words, then the walk
output resolved through the dictionary (dropping unknown ids and sentinel
words). -/
def Chain.generate_from_pref (ch : Chain) (fuel : Nat) (dir : Direction)
    (pfx : Nat × Nat) (rng : RNG) : Option (List String × Chain × RNG) :=
  match ch.paths.get pfx with
  | none => some ([], ch, rng)
  | some _ =>
    let r0 := ch.dict.tokid none
    let ret1 : List String := match r0.2.entry pfx.1 with
      | some (some word) => [word]
      | _ => []
    let ret2 : List String := match r0.2.entry pfx.2 with
      | some (some word) => [word]
      | _ => []
    match walkAux ch.paths dir r0.1 fuel pfx rng with
    | none => none
    | some (ids, rng1) =>
      some (ret1 ++ ret2 ++ (ids.filterMap r0.2.entry).filterMap id,
        ⟨r0.2, ch.paths, ch.entries⟩, rng1)

/-- `Chain::generate_one`: forward walk from the sentinel context. -/
def Chain.generate_one (ch : Chain) (fuel : Nat) (rng : RNG) :
    Option (Option String × Chain × RNG) :=
  let r0 := ch.dict.tokid none
  let ch1 : Chain := ⟨r0.2, ch.paths, ch.entries⟩
  match ch1.generate_from_pref fuel Direction.forward (r0.1, r0.1) rng with
  | none => none
  | some (result, ch2, rng1) => some (some (vec_to_string result), ch2, rng1)

/-- `Chain::generate_one_from`: intern the whole seed string as one token,
bootstrap a successor from the entry index, then walk forward and backward
from the two-token context and assemble the output. -/
def Chain.generate_one_from (ch : Chain) (fuel : Nat) (rng : RNG)
    (start : String) : Option (Option String × Chain × RNG) :=
  let r0 := ch.dict.tokid (some start)
  let ch1 : Chain := ⟨r0.2, ch.paths, ch.entries⟩
  match alookup ch1.entries r0.1 with
  | some possibles =>
    match possibles.choose rng with
    | none => none
    | some (next_start, rng1) =>
      match ch1.generate_from_pref fuel Direction.forward (r0.1, next_start)
          rng1 with
      | none => none
      | some (forward, ch2, rng2) =>
        match ch2.generate_from_pref fuel Direction.reverse (r0.1, next_start)
            rng2 with
        | none => none
        | some (reverse, ch3, rng3) =>
          some (some (vec_to_string
              (reverse.reverse.dropLast.dropLast ++ forward)), ch3, rng3)
  | none => some (none, ch1, rng)

/-- The sort key of `choose_best`: `((s.len() as i32) - target_chars).abs()`
(`s.len()` is the UTF-8 byte length). -/
def sortKey (target_chars : Int) (s : String) : Nat :=
  ((s.utf8ByteSize : Int) - target_chars).natAbs

/-- `Chain::choose_best`: drop failed attempts, stable-sort by distance of
the byte length from the target, return the first. -/
def choose_best (gens : List (Option String)) (target_chars : Int) :
    Option String :=
  let sorted := (gens.filterMap id).mergeSort
    (fun a b => decide (sortKey target_chars a ≤ sortKey target_chars b))
  sorted.head?

/-- The `(1..50).map(|_| self.generate_one_from(..))` loop: `n` attempts,
threading chain and rng state. -/
def attemptsFrom (fuel : Nat) (start : String) :
    Nat → Chain → RNG → Option (List (Option String) × Chain × RNG)
  | 0, ch, rng => some ([], ch, rng)
  | n + 1, ch, rng =>
    match ch.generate_one_from fuel rng start with
    | none => none
    | some (o, ch1, rng1) =>
      match attemptsFrom fuel start n ch1 rng1 with
      | none => none
      | some (rest, ch2, rng2) => some (o :: rest, ch2, rng2)

/-- The `(1..50).map(|_| self.generate_one())` loop. -/
def attemptsOne (fuel : Nat) :
    Nat → Chain → RNG → Option (List (Option String) × Chain × RNG)
  | 0, ch, rng => some ([], ch, rng)
  | n + 1, ch, rng =>
    match ch.generate_one fuel rng with
    | none => none
    | some (o, ch1, rng1) =>
      match attemptsOne fuel n ch1 rng1 with
      | none => none
      | some (rest, ch2, rng2) => some (o :: rest, ch2, rng2)

/-- `Chain::generate_best_from`: 49 seeded attempts, then `choose_best`. -/
def Chain.generate_best_from (ch : Chain) (fuel : Nat) (rng : RNG)
    (start : String) (target_chars : Int) :
    Option (Option String × Chain × RNG) :=
  match attemptsFrom fuel start 49 ch rng with
  | none => none
  | some (gens, ch1, rng1) => some (choose_best gens target_chars, ch1, rng1)

/-- `Chain::generate_best`: 49 unseeded attempts, then `choose_best`. -/
def Chain.generate_best (ch : Chain) (fuel : Nat) (rng : RNG)
    (target_chars : Int) : Option (Option String × Chain × RNG) :=
  match attemptsOne fuel 49 ch rng with
  | none => none
  | some (gens, ch1, rng1) => some (choose_best gens target_chars, ch1, rng1)

/-- A concrete random stream: always draw 0. -/
def rng0 : RNG := fun _ => 0

/-- The generated string (discarding state) of one seeded attempt. -/
def genOneFromOut (ch : Chain) (fuel : Nat) (rng : RNG) (start : String) :
    Option (Option String) :=
  (ch.generate_one_from fuel rng start).map (fun t => t.1)

/-- The dictionary contents after one seeded attempt. -/
def genOneFromDict (ch : Chain) (fuel : Nat) (rng : RNG) (start : String) :
    List Token :=
  match ch.generate_one_from fuel rng start with
  | some t => t.2.1.dict.entries
  | none => []

/-- The generated string (discarding state) of `generate_best`. -/
def genBestOut (ch : Chain) (fuel : Nat) (rng : RNG) (target_chars : Int) :
    Option (Option String) :=
  (ch.generate_best fuel rng target_chars).map (fun t => t.1)

/-- The generated string (discarding state) of `generate_best_from`. -/
def genBestFromOut (ch : Chain) (fuel : Nat) (rng : RNG) (start : String)
    (target_chars : Int) : Option (Option String) :=
  (ch.generate_best_from fuel rng start target_chars).map (fun t => t.1)

/-- The list of 49 attempt results (discarding state) behind
`generate_best_from`. -/
def gensFromOut (ch : Chain) (fuel : Nat) (rng : RNG) (start : String) :
    Option (List (Option String)) :=
  (attemptsFrom fuel start 49 ch rng).map (fun t => t.1)

/-- The chain state after one sentinel interning on a fresh chain. -/
def chainE : Chain := ⟨⟨[(none, 0)], [none]⟩, ⟨[]⟩, []⟩

theorem gen_one_new (fuel : Nat) (rng : RNG) :
    Chain.new.generate_one fuel rng = some (some "", chainE, rng) := rfl

theorem gen_one_chainE (fuel : Nat) (rng : RNG) :
    chainE.generate_one fuel rng = some (some "", chainE, rng) := rfl

theorem attemptsOne_chainE :
    ∀ (fuel n : Nat) (rng : RNG),
      attemptsOne fuel n chainE rng
        = some (List.replicate n (some ""), chainE, rng)
  | _, 0, _ => rfl
  | fuel, n + 1, rng => by
    simp only [attemptsOne, gen_one_chainE]
    rw [attemptsOne_chainE fuel n rng]
    simp [List.replicate_succ]

theorem attemptsOne_new (fuel n : Nat) (rng : RNG) :
    attemptsOne fuel (n + 1) Chain.new rng
      = some (List.replicate (n + 1) (some ""), chainE, rng) := by
  simp only [attemptsOne, gen_one_new]
  rw [attemptsOne_chainE fuel n rng]
  simp [List.replicate_succ]

theorem filterMap_id_replicate_some (n : Nat) (s : String) :
    (List.replicate n (some s)).filterMap id = List.replicate n s := by
  induction n with
  | zero => rfl
  | succ m ih => simp [List.replicate_succ, ih]

theorem choose_best_all_empty (n : Nat) (hn : n ≠ 0) (target : Int) :
    choose_best (List.replicate n (some "")) target = some "" := by
  unfold choose_best
  rw [filterMap_id_replicate_some]
  have hlen : ((List.replicate n "").mergeSort
      (fun a b => decide (sortKey target a ≤ sortKey target b))).length = n := by
    rw [List.length_mergeSort]
    simp
  cases hms : (List.replicate n "").mergeSort
      (fun a b => decide (sortKey target a ≤ sortKey target b)) with
  | nil =>
    rw [hms] at hlen
    simp at hlen
    omega
  | cons a t =>
    have ha : a ∈ (List.replicate n "").mergeSort
        (fun a b => decide (sortKey target a ≤ sortKey target b)) := by
      rw [hms]
      simp
    have := List.eq_of_mem_replicate (List.mem_mergeSort.mp ha)
    simp [this]

/-- **C5 counterexample**: `generate_best` (the no-seed `generate`) on a
chain with no ingestion returns `Some ""`, not `None`. -/
theorem c5_counterexample :
    genBestOut Chain.new 1 rng0 10 = some (some "") ∧
      genBestOut Chain.new 1 rng0 10 ≠ some none := by
  have h1 : genBestOut Chain.new 1 rng0 10 = some (some "") := by
    unfold genBestOut Chain.generate_best
    have h49 : attemptsOne 1 49 Chain.new rng0
        = some (List.replicate 49 (some ""), chainE, rng0) :=
      attemptsOne_new 1 48 rng0
    rw [h49]
    show Option.map (fun t => t.1)
      (some (choose_best (List.replicate 49 (some "")) 10, chainE, rng0))
      = some (some "")
    rw [choose_best_all_empty 49 (by omega) 10]
    rfl
  exact ⟨h1, by rw [h1]; simp⟩

/-- **C5 (amended)**: for every target length, random stream and fuel,
calling `generate_best` with no seed on an empty chain (no ingestion
performed) returns `Some ""` — the empty walk yields the empty word list,
which `vec_to_string` renders as the empty string, and all 49 attempts agree
on it; it never returns `None`. -/
theorem c5_generate_on_empty (fuel : Nat) (rng : RNG) (target : Int) :
    genBestOut Chain.new fuel rng target = some (some "") := by
  unfold genBestOut Chain.generate_best
  have h49 : attemptsOne fuel 49 Chain.new rng
      = some (List.replicate 49 (some ""), chainE, rng) :=
    attemptsOne_new fuel 48 rng
  rw [h49]
  show Option.map (fun t => t.1)
    (some (choose_best (List.replicate 49 (some "")) target, chainE, rng))
    = some (some "")
  rw [choose_best_all_empty 49 (by omega) target]
  rfl

theorem alookup_none {α β : Type} [DecidableEq α] {l : List (α × β)} {k : α}
    (h : ∀ kv ∈ l, kv.1 ≠ k) : alookup l k = none := by
  induction l with
  | nil => rfl
  | cons kv rest ih =>
    obtain ⟨k0, v0⟩ := kv
    simp only [alookup]
    rw [if_neg (h (k0, v0) (by simp))]
    exact ih (fun kv2 hkv2 => h kv2 (List.mem_cons_of_mem _ hkv2))

/-- A generation attempt whose seed is not yet in the dictionary: the seed is
interned (dictionary extended), the fresh id has no entry-index slot, and the
attempt returns `none` without consuming randomness. -/
theorem gen_one_from_fresh {ch : Chain} {w : String} (fuel : Nat) (rng : RNG)
    (hunk : alookup ch.dict.tokenids (some w) = none)
    (hbound : ∀ kv ∈ ch.entries, kv.1 < ch.dict.entries.length) :
    ch.generate_one_from fuel rng w =
      some (none,
        ⟨⟨aupsert ch.dict.tokenids (some w) ch.dict.entries.length,
          ch.dict.entries ++ [some w]⟩, ch.paths, ch.entries⟩, rng) := by
  unfold Chain.generate_one_from
  rw [tokid_fresh hunk]
  have hent : alookup ch.entries ch.dict.entries.length = none :=
    alookup_none (fun kv hkv => by have := hbound kv hkv; omega)
  dsimp only
  rw [hent]

/-- A generation attempt whose seed is in the dictionary but whose id has no
entry-index slot: fails with `none`, changing nothing. -/
theorem gen_one_from_dead {ch : Chain} {w : String} {i : Nat} (fuel : Nat)
    (rng : RNG) (hl : alookup ch.dict.tokenids (some w) = some i)
    (hni : alookup ch.entries i = none) :
    ch.generate_one_from fuel rng w = some (none, ch, rng) := by
  unfold Chain.generate_one_from
  have hr0 : ch.dict.tokid (some w) = (i, ch.dict) := by
    unfold Dict.tokid
    rw [hl]
  rw [hr0]
  dsimp only
  rw [hni]

theorem attemptsFrom_dead (fuel : Nat) (w : String) :
    ∀ (n : Nat) (ch : Chain) (rng : RNG) (i : Nat),
      alookup ch.dict.tokenids (some w) = some i →
      alookup ch.entries i = none →
      attemptsFrom fuel w n ch rng = some (List.replicate n none, ch, rng)
  | 0, ch, rng, i, _, _ => rfl
  | n + 1, ch, rng, i, hl, hni => by
    simp only [attemptsFrom]
    rw [gen_one_from_dead fuel rng hl hni]
    dsimp only
    rw [attemptsFrom_dead fuel w n ch rng i hl hni]
    simp [List.replicate_succ]

theorem choose_best_all_none (n : Nat) (target : Int) :
    choose_best (List.replicate n none) target = none := by
  unfold choose_best
  have hfm : (List.replicate n (none : Option String)).filterMap id = [] := by
    induction n with
    | zero => rfl
    | succ m ih => simp [List.replicate_succ, ih]
  rw [hfm]
  simp [List.mergeSort_nil]

/-- The chain obtained by ingesting the single line `"a b"`. -/
def cAB : Chain := (Chain.new.feed_str "a b").getD Chain.new

/-- **C4 counterexample**: a generation attempt on the chain fed `"a b"` with
the unseen seed `"zzz"` does fail with `none`, but the dictionary is changed:
it gains `"zzz"` — seed resolution goes through the interning `tokid`, not a
read-only lookup. -/
theorem c4_counterexample :
    genOneFromOut cAB 5 rng0 "zzz" = some none ∧
      genOneFromDict cAB 5 rng0 "zzz" = cAB.dict.entries ++ [some "zzz"] ∧
      genOneFromDict cAB 5 rng0 "zzz" ≠ cAB.dict.entries := by
  decide

/-- **C4 (amended)**: on any chain built by ingestion, a generation attempt
whose seed word is not in the dictionary fails with `none` (not-found) and
leaves the transition and entry indexes and the random stream untouched, but
the seed word IS added to the dictionary with the next fresh identifier: the
seed is resolved through the interning `tokid`, not a read-only lookup. -/
theorem c4_unknown_seed_interned (lines : List String) (ch : Chain)
    (fuel : Nat) (rng : RNG) (w : String)
    (hb : buildChain lines = some ch)
    (hunk : alookup ch.dict.tokenids (some w) = none) :
    ch.generate_one_from fuel rng w =
      some (none,
        ⟨⟨aupsert ch.dict.tokenids (some w) ch.dict.entries.length,
          ch.dict.entries ++ [some w]⟩, ch.paths, ch.entries⟩, rng) := by
  obtain ⟨-, -, -, hbound, -⟩ := buildChain_inv hb
  exact gen_one_from_fresh fuel rng hunk hbound

/-- Witness for C4 on the chain fed `"a b"` with seed `"zzz"`. -/
theorem c4_unknown_seed_interned_witness :
    buildChain ["a b"] = some cAB ∧
    alookup cAB.dict.tokenids (some "zzz") = none ∧
    cAB.generate_one_from 5 rng0 "zzz" =
      some (none,
        ⟨⟨aupsert cAB.dict.tokenids (some "zzz") cAB.dict.entries.length,
          cAB.dict.entries ++ [some "zzz"]⟩, cAB.paths, cAB.entries⟩, rng0) :=
  ⟨by decide, by decide,
   c4_unknown_seed_interned ["a b"] cAB 5 rng0 "zzz" (by decide) (by decide)⟩

theorem attemptsFrom_fresh (fuel : Nat) (w : String) (n : Nat) (ch : Chain)
    (rng : RNG) (hunk : alookup ch.dict.tokenids (some w) = none)
    (hbound : ∀ kv ∈ ch.entries, kv.1 < ch.dict.entries.length) :
    attemptsFrom fuel w (n + 1) ch rng
      = some (List.replicate (n + 1) none,
        (⟨⟨aupsert ch.dict.tokenids (some w) ch.dict.entries.length,
          ch.dict.entries ++ [some w]⟩, ch.paths, ch.entries⟩ : Chain),
        rng) := by
  have hl1 : alookup
      (aupsert ch.dict.tokenids (some w) ch.dict.entries.length) (some w)
      = some ch.dict.entries.length := by
    rw [alookup_aupsert]
    rw [if_pos rfl]
  have hni1 : alookup ch.entries ch.dict.entries.length = none :=
    alookup_none (fun kv hkv => by have := hbound kv hkv; omega)
  simp only [attemptsFrom]
  rw [gen_one_from_fresh fuel rng hunk hbound]
  dsimp only
  rw [attemptsFrom_dead fuel w n
    (⟨⟨aupsert ch.dict.tokenids (some w) ch.dict.entries.length,
      ch.dict.entries ++ [some w]⟩, ch.paths, ch.entries⟩ : Chain)
    rng ch.dict.entries.length hl1 hni1]
  simp [List.replicate_succ]

/-- **C10**: on any chain built by ingestion, `generate_best_from` with a
seed word absent from the dictionary returns the graceful absence result
(`Some none` in the model: no panic, and the generation result is `None`)
for every fuel, random stream and target length: all 49 attempts fail. -/
theorem c10_unknown_seed_generate_none (lines : List String) (ch : Chain)
    (fuel : Nat) (rng : RNG) (w : String) (target : Int)
    (hb : buildChain lines = some ch)
    (hunk : alookup ch.dict.tokenids (some w) = none) :
    genBestFromOut ch fuel rng w target = some none := by
  obtain ⟨-, -, -, hbound, -⟩ := buildChain_inv hb
  unfold genBestFromOut Chain.generate_best_from
  have h49 : attemptsFrom fuel w 49 ch rng
      = some (List.replicate 49 none,
        (⟨⟨aupsert ch.dict.tokenids (some w) ch.dict.entries.length,
          ch.dict.entries ++ [some w]⟩, ch.paths, ch.entries⟩ : Chain),
        rng) :=
    attemptsFrom_fresh fuel w 48 ch rng hunk hbound
  rw [h49]
  show Option.map (fun t => t.1)
    (some (choose_best (List.replicate 49 none) target,
      (⟨⟨aupsert ch.dict.tokenids (some w) ch.dict.entries.length,
        ch.dict.entries ++ [some w]⟩, ch.paths, ch.entries⟩ : Chain), rng))
    = some none
  rw [choose_best_all_none 49 target]
  rfl

/-- Witness for C10 on the chain fed `"a b"` with seed `"zzz"`. -/
theorem c10_unknown_seed_generate_none_witness :
    buildChain ["a b"] = some cAB ∧
    alookup cAB.dict.tokenids (some "zzz") = none ∧
    genBestFromOut cAB 3 rng0 "zzz" 10 = some none :=
  ⟨by decide, by decide,
   c10_unknown_seed_generate_none ["a b"] cAB 3 rng0 "zzz" 10 (by decide)
     (by decide)⟩

/-- **C6 counterexample**: on the chain fed `"a b c"`, a generation attempt
seeded with the two known words `"a b"` produces no output at all (`none`):
the first-two/last-two context behaviour claimed for multi-word seeds does
not exist, and the seed is not echoed into any output. -/
theorem c6_counterexample :
    genOneFromOut cABC 5 rng0 "a b" = some none := by
  decide

/-- **C6 (amended)**: a seed phrase is never split into words: it is interned
as a single token.  On any chain built by line ingestion every dictionary
word is whitespace-free, so a seed phrase of two or more words (one
containing a whitespace character) is fresh, gets a fresh identifier with no
entry-index slot, and the attempt returns `none` — no reverse-walk/
forward-walk from the seed's word contexts happens and nothing is emitted. -/
theorem c6_multiword_seed_fails (lines : List String) (ch : Chain)
    (fuel : Nat) (rng : RNG) (seed : String)
    (hb : buildChain lines = some ch)
    (hws : ∃ c ∈ seed.toList, c.isWhitespace = true) :
    ch.generate_one_from fuel rng seed =
      some (none,
        ⟨⟨aupsert ch.dict.tokenids (some seed) ch.dict.entries.length,
          ch.dict.entries ++ [some seed]⟩, ch.paths, ch.entries⟩, rng) := by
  obtain ⟨hdinv, -, -, hbound, hclean⟩ := buildChain_inv hb
  have hunk : alookup ch.dict.tokenids (some seed) = none := by
    cases hl : alookup ch.dict.tokenids (some seed) with
    | none => rfl
    | some i =>
      exfalso
      have hent := (hdinv (some seed) i).mp hl
      obtain ⟨hlt, hval⟩ := List.getElem?_eq_some_iff.mp hent
      have hmem : (some seed : Token) ∈ ch.dict.entries := by
        rw [← hval]
        exact List.getElem_mem hlt
      obtain ⟨c, hc, hcw⟩ := hws
      have := hclean (some seed) hmem seed rfl c hc
      rw [hcw] at this
      cases this
  exact gen_one_from_fresh fuel rng hunk hbound

/-- Witness for C6 on the chain fed `"a b c"` with the two-word seed
`"a b"`. -/
theorem c6_multiword_seed_fails_witness :
    buildChain ["a b c"] = some cABC ∧
    (∃ c ∈ "a b".toList, c.isWhitespace = true) ∧
    cABC.generate_one_from 5 rng0 "a b" =
      some (none,
        ⟨⟨aupsert cABC.dict.tokenids (some "a b") cABC.dict.entries.length,
          cABC.dict.entries ++ [some "a b"]⟩, cABC.paths, cABC.entries⟩,
        rng0) :=
  ⟨by decide, by decide,
   c6_multiword_seed_fails ["a b c"] cABC 5 rng0 "a b" (by decide)
     (by decide)⟩

theorem cbLE_trans (target : Int) (a b c : String) :
    (decide (sortKey target a ≤ sortKey target b) : Bool) →
    (decide (sortKey target b ≤ sortKey target c) : Bool) →
    (decide (sortKey target a ≤ sortKey target c) : Bool) := by
  simp only [decide_eq_true_eq]
  omega

theorem cbLE_total (target : Int) (a b : String) :
    (decide (sortKey target a ≤ sortKey target b) ||
      decide (sortKey target b ≤ sortKey target a)) = true := by
  simp only [Bool.or_eq_true, decide_eq_true_eq]
  omega

/-- The head of the stable merge sort used by `choose_best` is the first
element of the input attaining the minimal sort key. -/
theorem head_mergeSort_first_min (target : Int) :
    ∀ (l1 : List String) (s : String) (l2 : List String),
      (∀ b ∈ l1, sortKey target s < sortKey target b) →
      (∀ b ∈ l2, sortKey target s ≤ sortKey target b) →
      ((l1 ++ s :: l2).mergeSort
        (fun a b => decide (sortKey target a ≤ sortKey target b))).head?
        = some s
  | [], s, l2, _, h2 => by
    obtain ⟨m1, m2, hms, hrest, hbig⟩ :=
      @List.mergeSort_cons String
        (fun a b => decide (sortKey target a ≤ sortKey target b))
        (cbLE_trans target) (cbLE_total target) s l2
    cases m1 with
    | nil =>
      simp only [List.nil_append] at hms ⊢
      rw [hms]
      simp
    | cons b t =>
      exfalso
      have hbm : b ∈ l2.mergeSort
          (fun a b => decide (sortKey target a ≤ sortKey target b)) := by
        rw [hrest]
        simp
      have hbl2 : b ∈ l2 := List.mem_mergeSort.mp hbm
      have hnb := hbig b (by simp)
      simp only [Bool.not_eq_true', decide_eq_false_iff_not] at hnb
      exact hnb (h2 b hbl2)
  | a :: l1, s, l2, h1, h2 => by
    have ih := head_mergeSort_first_min target l1 s l2
      (fun b hb => h1 b (List.mem_cons_of_mem a hb)) h2
    obtain ⟨m1, m2, hms, hrest, hbig⟩ :=
      @List.mergeSort_cons String
        (fun a b => decide (sortKey target a ≤ sortKey target b))
        (cbLE_trans target) (cbLE_total target) a (l1 ++ s :: l2)
    rw [hrest] at ih
    have hgl : (a :: l1) ++ s :: l2 = a :: (l1 ++ s :: l2) := by simp
    rw [hgl, hms]
    cases m1 with
    | nil =>
      exfalso
      simp only [List.nil_append] at ih hms
      have hsm : s ∈ m2 := by
        cases m2 with
        | nil => cases ih
        | cons x t =>
          have hx : x = s := by
            simp at ih
            exact ih
          subst hx
          simp
      have hsort := @List.sorted_mergeSort String
        (fun a b => decide (sortKey target a ≤ sortKey target b))
        (cbLE_trans target) (cbLE_total target) (a :: (l1 ++ s :: l2))
      rw [hms] at hsort
      have hle := List.rel_of_pairwise_cons hsort hsm
      simp only [decide_eq_true_eq] at hle
      have := h1 a (by simp)
      omega
    | cons b t =>
      simp only [List.cons_append, List.head?_cons] at ih ⊢
      exact ih

/-- Every non-empty list has a first minimizer decomposition for the
`choose_best` sort key. -/
theorem exists_first_min (target : Int) :
    ∀ (l : List String), l ≠ [] →
      ∃ l1 s l2, l = l1 ++ s :: l2 ∧
        (∀ b ∈ l1, sortKey target s < sortKey target b) ∧
        (∀ b ∈ l2, sortKey target s ≤ sortKey target b)
  | [], h => absurd rfl h
  | [x], _ => ⟨[], x, [], rfl, by simp, by simp⟩
  | x :: y :: ys, _ => by
    obtain ⟨l1, s, l2, heq, hl1, hl2⟩ :=
      exists_first_min target (y :: ys) (by simp)
    by_cases hx : sortKey target x ≤ sortKey target s
    · refine ⟨[], x, y :: ys, by simp, by simp, ?_⟩
      intro b hb
      rw [heq] at hb
      rcases List.mem_append.mp hb with h1 | h1
      · have := hl1 b h1
        omega
      · rcases List.mem_cons.mp h1 with h2 | h2
        · subst h2
          omega
        · have := hl2 b h2
          omega
    · refine ⟨x :: l1, s, l2, by rw [heq]; simp, ?_, hl2⟩
      intro b hb
      rcases List.mem_cons.mp hb with h2 | h2
      · subst h2
        omega
      · exact hl1 b h2

theorem filterMap_id_all_none {gens : List (Option String)}
    (h : ∀ g ∈ gens, g = none) : gens.filterMap id = [] := by
  induction gens with
  | nil => rfl
  | cons g rest ih =>
    have hg := h g (by simp)
    subst hg
    simp only [List.filterMap_cons, id]
    exact ih (fun g hg => h g (List.mem_cons_of_mem _ hg))

/-- Full characterisation of `choose_best`: it returns `none` exactly when
every attempt failed, and otherwise returns the first successful candidate
whose byte-length distance from the target is minimal (ties keep the
earliest candidate). -/
theorem choose_best_spec (gens : List (Option String)) (target : Int) :
    (choose_best gens target = none ↔ ∀ g ∈ gens, g = none) ∧
    (∀ s, choose_best gens target = some s →
      ∃ l1 l2, gens.filterMap id = l1 ++ s :: l2 ∧
        (∀ b ∈ l1, sortKey target s < sortKey target b) ∧
        (∀ b ∈ l2, sortKey target s ≤ sortKey target b)) := by
  constructor
  · constructor
    · intro h g hg
      cases g with
      | none => rfl
      | some s =>
        exfalso
        unfold choose_best at h
        have hmem : s ∈ gens.filterMap id :=
          List.mem_filterMap.mpr ⟨some s, hg, rfl⟩
        have hmem2 : s ∈ (gens.filterMap id).mergeSort
            (fun a b => decide (sortKey target a ≤ sortKey target b)) :=
          List.mem_mergeSort.mpr hmem
        rw [List.head?_eq_none_iff.mp h] at hmem2
        simp at hmem2
    · intro h
      unfold choose_best
      rw [filterMap_id_all_none h]
      simp [List.mergeSort_nil]
  · intro s h
    unfold choose_best at h
    have hne : gens.filterMap id ≠ [] := by
      intro h0
      rw [h0] at h
      simp [List.mergeSort_nil] at h
    obtain ⟨l1, s', l2, heq, hl1, hl2⟩ := exists_first_min target _ hne
    rw [heq, head_mergeSort_first_min target l1 s' l2 hl1 hl2] at h
    injection h with h
    subst h
    exact ⟨l1, l2, heq, hl1, hl2⟩

theorem attemptsFrom_length (fuel : Nat) (start : String) :
    ∀ (n : Nat) (ch : Chain) (rng : RNG) (g : List (Option String))
      (c2 : Chain) (r2 : RNG),
      attemptsFrom fuel start n ch rng = some (g, c2, r2) → g.length = n
  | 0, ch, rng, g, c2, r2, h => by
    cases h
    rfl
  | n + 1, ch, rng, g, c2, r2, h => by
    simp only [attemptsFrom] at h
    split at h
    · exact Option.noConfusion h
    · rename_i o ch1 rng1 heq1
      split at h
      · exact Option.noConfusion h
      · rename_i rest ch2 rng2 heq2
        injection h with h
        cases h
        have := attemptsFrom_length fuel start n ch1 rng1 _ _ _ heq2
        simp [this]

theorem genBestFromOut_eq {ch : Chain} {fuel : Nat} {rng : RNG}
    {start : String} (target : Int) {gens : List (Option String)}
    (hg : gensFromOut ch fuel rng start = some gens) :
    genBestFromOut ch fuel rng start target
      = some (choose_best gens target) := by
  unfold gensFromOut at hg
  unfold genBestFromOut Chain.generate_best_from
  cases ha : attemptsFrom fuel start 49 ch rng with
  | none =>
    rw [ha] at hg
    cases hg
  | some t =>
    rw [ha] at hg
    obtain ⟨gens0, ch1, rng1⟩ := t
    simp at hg
    subst hg
    rfl

/-- **C3 (amended)**: best-of-N generation (`generate_best_from`) performs
exactly 49 candidate attempts; whenever the attempt batch completes with
results `gens`, the returned value is `choose_best gens`, which is `none`
exactly when all 49 attempts failed, and otherwise the first successful
candidate whose UTF-8 byte length (`s.len()`, not character count) has the
smallest absolute difference from the target, ties resolved in favour of the
earliest attempt. -/
theorem c3_best_of_n (ch : Chain) (fuel : Nat) (rng : RNG) (start : String)
    (target : Int) (gens : List (Option String))
    (hg : gensFromOut ch fuel rng start = some gens) :
    gens.length = 49 ∧
    genBestFromOut ch fuel rng start target
      = some (choose_best gens target) ∧
    (choose_best gens target = none ↔ ∀ g ∈ gens, g = none) ∧
    (∀ s, choose_best gens target = some s →
      ∃ l1 l2, gens.filterMap id = l1 ++ s :: l2 ∧
        (∀ b ∈ l1, sortKey target s < sortKey target b) ∧
        (∀ b ∈ l2, sortKey target s ≤ sortKey target b)) := by
  refine ⟨?_, genBestFromOut_eq target hg, (choose_best_spec gens target).1,
    (choose_best_spec gens target).2⟩
  unfold gensFromOut at hg
  cases ha : attemptsFrom fuel start 49 ch rng with
  | none =>
    rw [ha] at hg
    cases hg
  | some t =>
    rw [ha] at hg
    obtain ⟨gens0, ch1, rng1⟩ := t
    simp at hg
    subst hg
    exact attemptsFrom_length fuel start 49 ch rng gens0 ch1 rng1 ha

/-- The chain obtained by ingesting `"s é"` and `"s ab"`. -/
def cSeed : Chain := (buildChain ["s é", "s ab"]).getD Chain.new

/-- A concrete random stream: first draw 1, then always 0. -/
def rngX : RNG := fun n => if n = 0 then 1 else 0

/-- The 49 attempt results of the C3 counterexample run. -/
def gensX : List (Option String) :=
  some "s ab" :: List.replicate 48 (some "s é")

/-- **C3 counterexample**: on the chain fed `"s é"` and `"s ab"`, seeded
with `"s"` and target length 3, the attempt batch contains the candidate
`"s é"` whose character-length distance from the target (|3-3| = 0) is
strictly smaller than that of every other candidate, yet generation returns
`"s ab"` (character-length distance |4-3| = 1): selection uses the UTF-8
byte length (both candidates have 4 bytes, so the byte-length tie keeps the
first attempt), not the character length the claim states. -/
theorem c3_counterexample :
    gensFromOut cSeed 5 rngX "s" = some gensX ∧
    genBestFromOut cSeed 5 rngX "s" 3 = some (some "s ab") ∧
    some "s é" ∈ gensX ∧
    (("s é".length : Int) - 3).natAbs < (("s ab".length : Int) - 3).natAbs := by
  have hg : gensFromOut cSeed 5 rngX "s" = some gensX := by decide
  have hcb : choose_best gensX 3 = some "s ab" := by
    unfold choose_best
    have hfm : gensX.filterMap id = "s ab" :: List.replicate 48 "s é" := by
      decide
    rw [hfm]
    have hhead := head_mergeSort_first_min 3 [] "s ab"
      (List.replicate 48 "s é") (by simp) (by decide)
    simpa using hhead
  have hbest := genBestFromOut_eq 3 hg
  rw [hcb] at hbest
  exact ⟨hg, hbest, by decide, by decide⟩

/-- Witness for C3 on the chain fed `"s é"` and `"s ab"` with seed `"s"`. -/
theorem c3_best_of_n_witness :
    gensFromOut cSeed 5 rngX "s" = some gensX ∧
    (gensX.length = 49 ∧
      genBestFromOut cSeed 5 rngX "s" 3 = some (choose_best gensX 3) ∧
      (choose_best gensX 3 = none ↔ ∀ g ∈ gensX, g = none) ∧
      (∀ s, choose_best gensX 3 = some s →
        ∃ l1 l2, gensX.filterMap id = l1 ++ s :: l2 ∧
          (∀ b ∈ l1, sortKey 3 s < sortKey 3 b) ∧
          (∀ b ∈ l2, sortKey 3 s ≤ sortKey 3 b))) :=
  ⟨by decide, c3_best_of_n cSeed 5 rngX "s" 3 gensX (by decide)⟩
